import Mathlib

/-!
Verification development for the tiak download server (Rust sources under
`src/server/src/`).  The job store (`db.rs`), the scheduler (`queue.rs`),
the stdout parser of the process runner, the file index (`storage.rs`) and
the sync manager are shallowly embedded as pure Lean functions; the
concurrent scheduler is modelled as a labelled transition system whose
atomic actions are the critical sections of the Rust code.
-/

/-! ## Job store (`db.rs`)

A `Job` mirrors the `jobs` table row.  Timestamps are integer milliseconds
(`chrono::Utc::now().timestamp_millis()`), statuses are the literal strings
used by the Rust code.  The store is the list of rows in insertion order;
`id` is the primary key (uniqueness is an invariant maintained by the
operations, not a type-level fact).
-/

structure Job where
  id : String
  url : String
  status : String
  progress : Int
  eta : Option Int
  filename : Option String
  createdAt : Int
  startedAt : Option Int
  completedAt : Option Int
  retries : Int
  error : Option String
deriving DecidableEq, Repr

abbrev Store := List Job

/-- `Db::add_job`: the freshly inserted row (status `queued`, all optional
fields unset); `id` comes from `Uuid::new_v4` and `now` from the clock. -/
def newJob (id url : String) (now : Int) : Job :=
  { id := id, url := url, status := "queued", progress := 0, eta := none,
    filename := none, createdAt := now, startedAt := none,
    completedAt := none, retries := 0, error := none }

def add_job (st : Store) (id url : String) (now : Int) : Store :=
  List.append st [newJob id url now]

/-- `Db::get_job`: `SELECT * FROM jobs WHERE id = ?` (first row). -/
def get_job (st : Store) (id : String) : Option Job :=
  List.find? (fun j => j.id = id) st

/-- `Db::check_job_exists`: `SELECT count(*) ... WHERE id = ?` compared to 0. -/
def check_job_exists (st : Store) (id : String) : Bool :=
  List.any st (fun j => j.id = id)

/-- `Db::update_progress`. -/
def update_progress (st : Store) (id : String) (p : Int) (eta : Option Int) : Store :=
  st.map (fun j => if j.id = id then { j with progress := p, eta := eta } else j)

/-- `Db::mark_downloading`: status `downloading`, `startedAt` set to now. -/
def mark_downloading (st : Store) (id : String) (now : Int) : Store :=
  st.map (fun j => if j.id = id then
    { j with status := "downloading", startedAt := some now } else j)

/-- `Db::mark_done`: status `done`, progress 100, eta cleared, filename set,
`completedAt` set. -/
def mark_done (st : Store) (id fn : String) (now : Int) : Store :=
  st.map (fun j => if j.id = id then
    { j with
      status := "done", progress := 100, eta := none,
      filename := some fn, completedAt := some now } else j)

/-- `Db::mark_failed`: status `failed`, error text, `completedAt` set. -/
def mark_failed (st : Store) (id err : String) (now : Int) : Store :=
  st.map (fun j => if j.id = id then
    { j with status := "failed", error := some err, completedAt := some now } else j)

/-- `Db::increment_retry`: retries+1, status `queued`, error/progress/eta/
startedAt/completedAt reset.  Note: `filename` is NOT touched. -/
def increment_retry (st : Store) (id : String) : Store :=
  st.map (fun j => if j.id = id then
    { j with
      retries := j.retries + 1, status := "queued", error := none,
      progress := 0, eta := none, startedAt := none, completedAt := none } else j)

/-- `Db::redownload_job`: the same column updates as `increment_retry`
(the SQL lists them in a different order). -/
def redownload_update (st : Store) (id : String) : Store :=
  st.map (fun j => if j.id = id then
    { j with
      status := "queued", progress := 0, eta := none, error := none,
      retries := j.retries + 1, startedAt := none, completedAt := none } else j)

/-- `Db::reset_crashed_jobs`: every `downloading` row becomes `failed`
with error `crashed` (no other column is touched). -/
def reset_crashed_jobs (st : Store) : Store :=
  st.map (fun j => if j.status = "downloading" then
    { j with status := "failed", error := some "crashed" } else j)

/-- Stable insertion sort ascending on `createdAt` (`ORDER BY createdAt ASC`). -/
def createdLe (a b : Job) : Prop := a.createdAt ≤ b.createdAt

instance : DecidableRel createdLe := fun a b => by
  unfold createdLe; infer_instance

/-- `Db::get_queued_jobs`: `WHERE status = 'queued' ORDER BY createdAt ASC`. -/
def get_queued_jobs (st : Store) : List Job :=
  List.insertionSort createdLe (st.filter (fun j => j.status = "queued"))

/-- `Db::import_job` as driven by the import route: the route skips ids that
already exist (`check_job_exists`), otherwise inserts the row with status
forced to `imported` and retries forced to 0 (both also hard-coded in the
INSERT), keeping the supplied filename and timestamps. -/
def import_job (st : Store) (j : Job) : Store :=
  if check_job_exists st j.id then st
  else List.append st [{ j with status := "imported", retries := 0 }]

/-! ## Scheduler state (`queue.rs`, `DownloadQueue`)

The scheduler is modelled as a labelled transition system.  Each label
(`Act`) is one critical section of the Rust code, executed atomically:

* `queue`    — the pending `VecDeque<String>` (head = front);
* `registry` — the `active_jobs : DashMap<String, CancellationToken>`,
  an association list with unique keys (insert overwrites);
* `runners`  — the spawned download tasks that are still live, each
  holding the clone of the token it was started with.  A task ends only
  through its own completion handler, which is the `complete` action;
* `cancelled` — the set of cancellation tokens on which `cancel` has been
  called;
* `nextTok`  — fresh-token supply (`CancellationToken::new`);
* `signals`  — number of `notify_one` calls (the `Notify` wake signal).
-/

structure SchedState where
  store : Store
  queue : List String
  registry : List (String × Nat)
  runners : List (String × Nat)
  cancelled : List Nat
  nextTok : Nat
  maxConc : Nat
  signals : Nat
deriving DecidableEq

/-- Association-list lookup (`DashMap::get`). -/
def lookupKey (l : List (String × Nat)) (k : String) : Option Nat :=
  match l with
  | [] => none
  | p :: rest => if p.1 = k then some p.2 else lookupKey rest k

/-- Association-list insert with overwrite (`DashMap::insert`). -/
def insertReplace (l : List (String × Nat)) (k : String) (v : Nat) :
    List (String × Nat) :=
  match l with
  | [] => [(k, v)]
  | p :: rest => if p.1 = k then (k, v) :: rest else p :: insertReplace rest k v

/-- Association-list removal (`DashMap::remove`). -/
def removeKey (l : List (String × Nat)) (k : String) : List (String × Nat) :=
  match l with
  | [] => []
  | p :: rest => if p.1 = k then rest else p :: removeKey rest k

/-- `VecDeque::remove` at the `position` of the first match. -/
def removeFirstStr (l : List String) (x : String) : List String :=
  match l with
  | [] => []
  | y :: rest => if y = x then rest else y :: removeFirstStr rest x

/-- Remove the first occurrence of a pair (a finishing runner task). -/
def removePair (l : List (String × Nat)) (p : String × Nat) :
    List (String × Nat) :=
  match l with
  | [] => []
  | q :: rest => if q = p then rest else q :: removePair rest p

/-- `Notify::notify_one`. -/
def notifyOne (s : SchedState) : SchedState :=
  { s with signals := s.signals + 1 }

/-- `DownloadQueue::add_job`: insert the row, push the id at the tail,
signal.  The id is the fresh UUID. -/
def submit (s : SchedState) (id url : String) (now : Int) : SchedState :=
  notifyOne { s with
    store := add_job s.store id url now,
    queue := s.queue ++ [id] }

/-- `DownloadQueue::cancel_job`: if the id is in the active registry,
cancel its token and return immediately; otherwise remove the first
occurrence of the id from the pending queue (if any). -/
def cancel_job (s : SchedState) (id : String) : SchedState :=
  match lookupKey s.registry id with
  | some tok => { s with cancelled := tok :: s.cancelled }
  | none => { s with queue := removeFirstStr s.queue id }

/-- `DownloadQueue::retry_job`: if the job exists, apply
`increment_retry`, push the id at the tail, signal, and return the
re-fetched job; otherwise return `none` and leave everything unchanged. -/
def retry_job (s : SchedState) (id : String) : Option Job × SchedState :=
  match get_job s.store id with
  | some _ =>
      let st := increment_retry s.store id
      (get_job st id,
       notifyOne { s with store := st, queue := s.queue ++ [id] })
  | none => (none, s)

/-- `DownloadQueue::redownload_job`: same shape as `retry_job` with
`Db::redownload_job` as the update. -/
def redownload_job (s : SchedState) (id : String) : Option Job × SchedState :=
  match get_job s.store id with
  | some _ =>
      let st := redownload_update s.store id
      (get_job st id,
       notifyOne { s with store := st, queue := s.queue ++ [id] })
  | none => (none, s)

/-- `DownloadQueue::set_max_concurrent`: a 0 limit is rejected (no-op);
otherwise the ceiling is updated and the scheduler signalled. -/
def set_max_concurrent (s : SchedState) (n : Nat) : SchedState :=
  if 0 < n then notifyOne { s with maxConc := n } else s

/-- `DownloadQueue::start_download_task`: allocate a fresh token, register
it (overwriting any entry for the id), mark the job `downloading`, and
spawn the runner task. -/
def start_download_task (s : SchedState) (job : Job) (now : Int) : SchedState :=
  { s with
    registry := insertReplace s.registry job.id s.nextTok,
    runners := s.runners ++ [(job.id, s.nextTok)],
    nextTok := s.nextTok + 1,
    store := mark_downloading s.store job.id now }

/-- One iteration structure of the `process_next` loop, with fuel.  Each
iteration either stops (ceiling reached or queue empty) or pops the head;
a popped job is dispatched only if its re-fetched status is `queued`,
otherwise it is silently skipped (`continue`).  The queue shrinks by one
per iteration, so the entry fuel `s.queue.length` is exact. -/
def process_next_go (fuel : Nat) (now : Int) (s : SchedState) : SchedState :=
  match fuel with
  | 0 => s
  | fuel + 1 =>
    if s.maxConc ≤ s.registry.length then s
    else
      match s.queue with
      | [] => s
      | id :: rest =>
        let s1 := { s with queue := rest }
        match get_job s1.store id with
        | some job =>
            if job.status = "queued" then
              process_next_go fuel now (start_download_task s1 job now)
            else process_next_go fuel now s1
        | none => process_next_go fuel now s1

/-- `DownloadQueue::process_next` (one scheduling pass). -/
def process_next (s : SchedState) (now : Int) : SchedState :=
  process_next_go s.queue.length now s

/-- Does the first list start with the second list's characters? -/
def listStartsWith : List Char → List Char → Bool
  | [], _ => true
  | _ :: _, [] => false
  | a :: as, b :: bs => a = b && listStartsWith as bs

/-- Substring search over character lists. -/
def listHasSub (needle : List Char) : List Char → Bool
  | [] => listStartsWith needle []
  | b :: bs => listStartsWith needle (b :: bs) || listHasSub needle bs

/-- Does an error message contain the substring `cancelled`
(`msg.contains("cancelled")`)? -/
def containsCancelled (msg : String) : Bool :=
  listHasSub "cancelled".toList msg.toList

/-- The completion handler spawned by `start_download_task`, fired when
the runner task for `(id, tok)` settles with `result` (`run_yt_dlp`'s
return value): success persists `done` with the filename; a message
containing `cancelled` persists `failed`/`Cancelled` if the job still
exists; any other error persists `failed` with the message.  In every
case the registry entry for the id is removed, this runner task ends,
and the scheduler is signalled. -/
def complete_job (s : SchedState) (id : String) (tok : Nat)
    (result : Except String String) (now : Int) : SchedState :=
  let s1 :=
    match result with
    | .ok fn => { s with store := mark_done s.store id fn now }
    | .error msg =>
        if containsCancelled msg then
          if check_job_exists s.store id then
            { s with store := mark_failed s.store id "Cancelled" now }
          else s
        else { s with store := mark_failed s.store id msg now }
  notifyOne { s1 with
    registry := removeKey s1.registry id,
    runners := removePair s1.runners (id, tok) }

/-- `DownloadQueue::load_initial_state`: reset crashed jobs first, then
push every id that is `queued` in the (already reset) store onto the
pending queue unless already present, then signal once. -/
def load_initial_state (s : SchedState) : SchedState :=
  let st := reset_crashed_jobs s.store
  let q := (get_queued_jobs st).foldl
    (fun q j => if j.id ∈ q then q else q ++ [j.id]) s.queue
  notifyOne { s with store := st, queue := q }

/-! ### Actions and traces -/

deriving instance DecidableEq for Except

/-- One atomic action of the running system. -/
inductive Act where
  | submit (id url : String) (now : Int)
  | cancel (id : String)
  | retry (id : String)
  | redownload (id : String)
  | setMax (n : Nat)
  | pass (now : Int)
  | complete (id : String) (tok : Nat) (result : Except String String) (now : Int)
deriving DecidableEq

def applyAct (s : SchedState) : Act → SchedState
  | .submit id url now => submit s id url now
  | .cancel id => cancel_job s id
  | .retry id => (retry_job s id).2
  | .redownload id => (redownload_job s id).2
  | .setMax n => set_max_concurrent s n
  | .pass now => process_next s now
  | .complete id tok result now => complete_job s id tok result now

/-- Side conditions under which an action can fire: a submission uses a
fresh UUID; a completion comes from a live runner task, and the
distinguished `Job cancelled` outcome only after its own token was
cancelled (the runner's `select!` cancellation branch). -/
def enabledAct (s : SchedState) : Act → Bool
  | .submit id _ _ => !check_job_exists s.store id
  | .complete id tok result _ =>
      decide ((id, tok) ∈ s.runners) &&
      (!decide (result = .error "Job cancelled") || decide (tok ∈ s.cancelled))
  | _ => true

/-- Traces of enabled actions, restricted by a predicate `P` on the state
and the action taken there (`P := fun _ _ => True` gives plain
reachability). -/
inductive Steps (P : SchedState → Act → Prop) : SchedState → SchedState → Prop
  | refl (s : SchedState) : Steps P s s
  | tail (s t : SchedState) (a : Act) (h : Steps P s t)
      (hen : enabledAct t a = true) (hp : P t a) :
      Steps P s (applyAct t a)

/-- The scheduler as built by `DownloadQueue::new` (empty queue and
registry) with the concurrency ceiling at `n` (`new` itself sets 2; any
other value is reached by a single startup `set_max_concurrent`). -/
def initState (n : Nat) : SchedState :=
  { store := [], queue := [], registry := [], runners := [],
    cancelled := [], nextTok := 0, maxConc := n, signals := 0 }

/-! ## Store operation sequences (for the `filename` invariant)

The operations the HTTP layer and the scheduler can apply to a row. -/

inductive StoreOp where
  | create (id url : String) (now : Int)
  | markDownloading (id : String) (now : Int)
  | markDone (id fn : String) (now : Int)
  | markFailed (id err : String) (now : Int)
  | retryOp (id : String)
  | redownloadOp (id : String)
  | importOp (j : Job)
deriving DecidableEq

def applyStoreOp (st : Store) : StoreOp → Store
  | .create id url now => add_job st id url now
  | .markDownloading id now => mark_downloading st id now
  | .markDone id fn now => mark_done st id fn now
  | .markFailed id err now => mark_failed st id err now
  | .retryOp id => increment_retry st id
  | .redownloadOp id => redownload_update st id
  | .importOp j => import_job st j

def applyStoreOps (st : Store) (ops : List StoreOp) : Store :=
  ops.foldl applyStoreOp st

/-! ## Process runner stdout parsing (`run_yt_dlp`)

Each stdout line is matched independently against the five regexes.  A
line is represented by the result of those matches (the regex engine is
treated as an oracle): `prog` is the integer value of the percentage
capture of `re_progress` (the `f64` parse truncated by `as i64`),
`etaRaw` the raw `re_eta` capture, `dest`/`merge`/`already` the filename
captures of `re_dest`/`re_merge`/`re_already`.  `elapsedOk` records
whether at least one second passed since the last persisted progress
update (the rate limiter's clock, external to the parsing logic). -/

structure OutLine where
  prog : Option Int
  etaRaw : Option String
  elapsedOk : Bool
  dest : Option String
  merge : Option String
  already : Option String
deriving DecidableEq

/-- `parse::<i64>(..).unwrap_or(0)`. -/
def parseI64 (s : String) : Int := (s.toInt?).getD 0

/-- Split a character list on a separator character (the semantics of
`str::split` with a `char` pattern). -/
def splitListOn (c : Char) : List Char → List (List Char)
  | [] => [[]]
  | x :: xs =>
      if x = c then [] :: splitListOn c xs
      else
        match splitListOn c xs with
        | [] => [[x]]
        | p :: ps => (x :: p) :: ps

/-- `DownloadQueue::parse_eta`: `HH:MM:SS`, `MM:SS` or `SS` to seconds. -/
def parse_eta (etaStr : String) : Int :=
  let parts := (splitListOn ':' etaStr.toList).map String.mk
  if parts.length = 3 then
    parseI64 (parts.getD 0 "") * 3600 + parseI64 (parts.getD 1 "") * 60 +
      parseI64 (parts.getD 2 "")
  else if parts.length = 2 then
    parseI64 (parts.getD 0 "") * 60 + parseI64 (parts.getD 1 "")
  else parseI64 (parts.getD 0 "")

/-- ASCII whitespace (the characters yt-dlp output can carry; Rust's
`str::trim` strips Unicode whitespace, of which these occur here). -/
def isWhite (c : Char) : Bool :=
  c = ' ' || c = '\t' || c = '\n' || c = '\r'

/-- `str::trim`. -/
def rustTrim (s : String) : String :=
  String.mk (((s.toList.dropWhile isWhite).reverse.dropWhile isWhite).reverse)

/-- `trim_matches('"')`. -/
def stripQuotes (s : String) : String :=
  (s.toList.dropWhile (fun c => c = '"')).reverse.dropWhile (fun c => c = '"')
    |>.reverse |> String.mk

/-- `Path::new(name).file_name()` for the paths produced here: the final
non-empty `/`-separated component (`None`-returning corner cases such as
a bare `..` are outside the runner's inputs and fall back to `s`). -/
def rustFileName (s : String) : String :=
  ((((splitListOn '/' s.toList).map String.mk).filter
      (fun c => c ≠ "")).getLast?).getD s

/-- Accumulated effects of the stdout task: the `found_filename` mutex
and the sequence of `update_progress` writes it issued. -/
structure RunnerAcc where
  found : String
  updates : List (Int × Option Int)
deriving DecidableEq

/-- Processing of one stdout line, in source order: the progress matcher
(persisting `(p, eta)` when the rate limiter allows), then the
destination matcher, the merger matcher and the already-downloaded
matcher, each overwriting `found_filename`; the already-downloaded
matcher additionally persists progress 100 with eta 0 immediately. -/
def processLine (acc : RunnerAcc) (l : OutLine) : RunnerAcc :=
  let acc :=
    match l.prog with
    | some p =>
        if l.elapsedOk then
          { acc with updates := acc.updates ++ [(p, l.etaRaw.map parse_eta)] }
        else acc
    | none => acc
  let acc :=
    match l.dest with
    | some s => { acc with found := rustTrim s }
    | none => acc
  let acc :=
    match l.merge with
    | some s => { acc with found := stripQuotes (rustTrim s) }
    | none => acc
  match l.already with
  | some s => { found := rustTrim s, updates := acc.updates ++ [(100, some 0)] }
  | none => acc

def runnerInit : RunnerAcc := { found := "", updates := [] }

def runStdout (lines : List OutLine) : RunnerAcc :=
  lines.foldl processLine runnerInit

/-- `run_yt_dlp`'s return value on the process-exit branch of the
`select!` (no cancellation): on a zero exit the resolved filename — the
basename of `found_filename` if non-empty, else the fixed fallback
`unknown.mp4`; on a non-zero exit the error with the exit code. -/
def run_yt_dlp_result (lines : List OutLine) (exitSuccess : Bool)
    (exitCode : Option Int) : Except String String :=
  let acc := runStdout lines
  if exitSuccess then
    if acc.found ≠ "" then .ok (rustFileName acc.found)
    else .ok "unknown.mp4"
  else .error ("Process exited with code " ++ toString (exitCode.getD (-1)))

/-- The filename a single line supplies, if any, following the in-line
overwrite order (already-downloaded beats merger beats destination). -/
def lineFilename (l : OutLine) : Option String :=
  match l.already with
  | some s => some (rustTrim s)
  | none =>
      match l.merge with
      | some s => some (stripQuotes (rustTrim s))
      | none => l.dest.map rustTrim

/-! ## File index (`storage.rs`)

`FileItem.createdAt` is the file-creation timestamp; `dateFolder` the
first path component below the data root.  The cached grouped view is a
total function from date-folder to its (possibly empty) sorted group,
carrying the same information as the Rust `HashMap` (absent key = empty
group). -/

structure FileItem where
  path : String
  name : String
  size : Nat
  createdAt : Int
  dateFolder : String
deriving DecidableEq

structure FileIndexResponse where
  byDate : String → List FileItem
  lastScan : Int

structure FIState where
  files : List FileItem
  lastScan : Int
  cached : Option FileIndexResponse

/-- Descending creation-time order used for each group
(`sort_by(|a, b| b.created_at.cmp(&a.created_at))`, a stable sort). -/
def createdDesc (a b : FileItem) : Prop := b.createdAt ≤ a.createdAt

instance : DecidableRel createdDesc := fun a b => by
  unfold createdDesc; infer_instance

/-- The grouped-and-sorted view computed by `get_index` on a cache miss:
pushing each file into its date-folder's vector in list order and then
stably sorting each vector descending equals filtering and sorting. -/
def computeIndex (files : List FileItem) (lastScan : Int) : FileIndexResponse :=
  { byDate := fun d =>
      List.insertionSort createdDesc (files.filter (fun f => f.dateFolder = d)),
    lastScan := lastScan }

/-- `FileIndex::get_index`: return the cached view if valid, otherwise
compute, cache and return it.  The returned pair is (response, state
after the call). -/
def get_index (st : FIState) : FileIndexResponse × FIState :=
  match st.cached with
  | some c => (c, st)
  | none =>
      let r := computeIndex st.files st.lastScan
      (r, { st with cached := some r })

/-- `FileIndex::add_file`: if the path exists on disk and its metadata is
readable (`pathOk`), append one entry built from that metadata and
invalidate the cached view; otherwise do nothing. -/
def add_file (st : FIState) (pathOk : Bool) (item : FileItem) : FIState :=
  if pathOk then { st with files := st.files ++ [item], cached := none }
  else st

/-- Remove the entry at the `position` of the first path match, if any. -/
def eraseFirstPath (l : List FileItem) (p : String) : List FileItem :=
  match l with
  | [] => []
  | x :: rest => if x.path = p then rest else x :: eraseFirstPath rest p

/-- `FileIndex::remove_file`: drop the first entry with the given path
(at most one) and invalidate the cached view unconditionally. -/
def remove_file (st : FIState) (p : String) : FIState :=
  { st with files := eraseFirstPath st.files p, cached := none }

/-- `FileIndex::build_index`: replace the flat list wholesale, stamp the
scan time, invalidate the cached view. -/
def build_index (_st : FIState) (newFiles : List FileItem) (ts : Int) : FIState :=
  { files := newFiles, lastScan := ts, cached := none }

/-- `FileIndex::count_files_after`: files with creation time strictly
after the timestamp. -/
def count_files_after (st : FIState) (ts : Int) : Nat :=
  (st.files.filter (fun f => ts < f.createdAt)).length

/-! ## Sync manager (`run_sync` and its spawned task) -/

structure SyncState where
  status : String
  lastRun : Option Int
  logs : List String
  error : Option String
  unsyncedCount : Nat
deriving DecidableEq

def syncDefault : SyncState :=
  { status := "idle", lastRun := none, logs := [], error := none,
    unsyncedCount := 0 }

/-- The synchronous part of `run_sync`: single-flight check, then
transition to `running` with the log buffer cleared and the starting
line pushed; returns the advisory message. -/
def run_sync_start (st : SyncState) (dest : String) : String × SyncState :=
  if st.status = "running" then ("Sync is already running", st)
  else ("Sync started to " ++ dest,
    { st with
      status := "running",
      logs := ["Starting sync to " ++ dest ++ "..."],
      error := none })

/-- A reader-task append: drop the oldest line first when the buffer
holds more than 100 lines. -/
def pushLogBounded (st : SyncState) (line : String) : SyncState :=
  if 100 < st.logs.length then { st with logs := st.logs.drop 1 ++ [line] }
  else { st with logs := st.logs ++ [line] }

/-- How the spawned rclone supervision task ends. -/
inductive SyncOutcome where
  | spawnPanic
  | exited (success : Bool) (code : Option Int)
  | waitErr (msg : String)
deriving DecidableEq

/-- The spawned task of `run_sync`.  `spawn().expect(..)` panics the task
on a spawn failure, so in that case no state field is ever written.  On a
successful spawn the reader tasks stream `outLines` into the bounded log
buffer; then `child.wait()` either yields an exit status — success resets
to `idle`, zeroes the unsynced count and rewrites the marker file (its
mtime `now` becoming `lastRun`); a non-zero exit records
`Sync failed with exit code N` (code `-1` when unknown) — or fails, which
records the process error. -/
def run_sync_child (st : SyncState) (outLines : List String)
    (outcome : SyncOutcome) (now : Int) : SyncState :=
  match outcome with
  | .spawnPanic => st
  | .exited ok code =>
      let st1 := outLines.foldl pushLogBounded st
      if ok then
        { st1 with
          status := "idle",
          logs := st1.logs ++ ["Sync completed successfully."],
          unsyncedCount := 0,
          lastRun := some now }
      else
        let msg := "Sync failed with exit code " ++ toString (code.getD (-1))
        { st1 with
          status := "error",
          error := some msg,
          logs := st1.logs ++ [msg] }
  | .waitErr e =>
      { st with
        status := "error",
        error := some e,
        logs := st.logs ++ ["Process error: " ++ e] }

/-! ## Auxiliary lemmas about the store and the registry -/

theorem get_job_map_update (st : Store) (id : String) (f : Job → Job)
    (hf : ∀ j, (f j).id = j.id) :
    get_job (st.map (fun j => if j.id = id then f j else j)) id
      = (get_job st id).map f := by
  induction st with
  | nil => rfl
  | cons j rest ih =>
    by_cases h : j.id = id
    · have hfid : (f j).id = id := by rw [hf j, h]
      simp [get_job, h, hfid]
    · simp only [get_job, List.map_cons] at ih ⊢
      rw [if_neg h, List.find?_cons_of_neg, List.find?_cons_of_neg]
      · exact ih
      · simp [h]
      · simp [h]

theorem get_job_map_update_ne (st : Store) (id id2 : String) (f : Job → Job)
    (hf : ∀ j, (f j).id = j.id) (hne : id2 ≠ id) :
    get_job (st.map (fun j => if j.id = id then f j else j)) id2
      = get_job st id2 := by
  induction st with
  | nil => rfl
  | cons j rest ih =>
    by_cases h : j.id = id
    · have hfid : (f j).id = id := by rw [hf j, h]
      have hne2 : ¬ (f j).id = id2 := by rw [hfid]; exact fun e => hne e.symm
      have hne3 : ¬ j.id = id2 := by rw [h]; exact fun e => hne e.symm
      simp only [get_job, List.map_cons] at ih ⊢
      rw [if_pos h, List.find?_cons_of_neg, List.find?_cons_of_neg]
      · exact ih
      · simp [hne3]
      · simp [hne2]
    · simp only [get_job, List.map_cons] at ih ⊢
      rw [if_neg h]
      by_cases h2 : j.id = id2
      · rw [List.find?_cons_of_pos, List.find?_cons_of_pos] <;> simp [h2]
      · rw [List.find?_cons_of_neg, List.find?_cons_of_neg]
        · exact ih
        · simp [h2]
        · simp [h2]

theorem get_job_append_ne (st : Store) (j : Job) (id : String) (h : j.id ≠ id) :
    get_job (st ++ [j]) id = get_job st id := by
  induction st with
  | nil => simp [get_job, List.find?, h]
  | cons x rest ih =>
    by_cases hx : x.id = id
    · simp [get_job, List.find?_cons_of_pos, hx]
    · simp only [get_job, List.cons_append, List.append_eq] at ih ⊢
      rw [List.find?_cons_of_neg, List.find?_cons_of_neg]
      · exact ih
      · simp [hx]
      · simp [hx]

theorem ids_map_cond (st : Store) (p : Job → Prop) [DecidablePred p]
    (f : Job → Job) (hf : ∀ j, (f j).id = j.id) :
    (st.map (fun j => if p j then f j else j)).map (fun j => j.id)
      = st.map (fun j => j.id) := by
  induction st with
  | nil => rfl
  | cons j rest ih =>
    simp only [List.map_cons, ih]
    by_cases h : p j
    · rw [if_pos h, hf j]
    · rw [if_neg h]

theorem check_job_exists_iff (st : Store) (id : String) :
    check_job_exists st id = true ↔ ∃ j ∈ st, j.id = id := by
  simp [check_job_exists, List.any_eq_true]

theorem get_job_eq_some (st : Store) (id : String) (j : Job)
    (h : get_job st id = some j) : j ∈ st ∧ j.id = id := by
  refine ⟨List.mem_of_find?_eq_some h, ?_⟩
  have := List.find?_some h
  simpa using this

/-- The row produced by `increment_retry`/`redownload_job` from a row `j`. -/
def resetJob (j : Job) : Job :=
  { j with
    retries := j.retries + 1, status := "queued", error := none,
    progress := 0, eta := none, startedAt := none, completedAt := none }

theorem redownload_update_eq (st : Store) (id : String) :
    redownload_update st id = increment_retry st id := rfl

theorem get_job_increment_retry (st : Store) (id : String) :
    get_job (increment_retry st id) id = (get_job st id).map resetJob :=
  get_job_map_update st id resetJob (fun _ => rfl)

/-- C4 (confirmed): for a job that exists in the store, `retry_job` and
`redownload_job` produce identical results: the job is reset to `queued`
with retries incremented by one and error/progress/eta/startedAt/
completedAt cleared to their initial unset values, the id is re-enqueued
at the tail, the scheduler is signalled once, the updated job is
returned, and no other job row is changed; `redownload_job` increments
retries from any prior status including `done`.  For a nonexistent id
both return `none` and leave the state unchanged. -/
theorem c4_retry_redownload (s : SchedState) (id : String) :
    (∀ j, get_job s.store id = some j →
      retry_job s id =
        (some (resetJob j),
          { s with
            store := increment_retry s.store id,
            queue := s.queue ++ [id], signals := s.signals + 1 }) ∧
      redownload_job s id = retry_job s id ∧
      get_job (retry_job s id).2.store id = some (resetJob j) ∧
      (∀ id2, id2 ≠ id →
        get_job (retry_job s id).2.store id2 = get_job s.store id2)) ∧
    (get_job s.store id = none →
      retry_job s id = (none, s) ∧ redownload_job s id = (none, s))
  := by
  constructor
  · intro j hj
    have hget : get_job (increment_retry s.store id) id = some (resetJob j) := by
      rw [get_job_increment_retry, hj]; rfl
    refine ⟨?_, ?_, ?_, ?_⟩
    · simp [retry_job, hj, hget, notifyOne]
    · simp [retry_job, redownload_job, hj, redownload_update_eq]
    · simpa [retry_job, hj, notifyOne] using hget
    · intro id2 hne
      simp only [retry_job, hj, notifyOne]
      exact get_job_map_update_ne s.store id id2 resetJob (fun _ => rfl) hne
  · intro hj
    constructor
    · simp [retry_job, hj]
    · simp [redownload_job, hj]

def c4wJob : Job :=
  { id := "W", url := "u", status := "done", progress := 100, eta := none,
    filename := some "f.mp4", createdAt := 0, startedAt := some 1,
    completedAt := some 2, retries := 3, error := none }

def c4wS : SchedState :=
  { store := [c4wJob], queue := [], registry := [], runners := [],
    cancelled := [], nextTok := 0, maxConc := 2, signals := 0 }

theorem c4_witness :
    c4wJob.status = "done" ∧
    (redownload_job c4wS "W").1 = some (resetJob c4wJob) ∧
    (resetJob c4wJob).retries = 4 ∧ (resetJob c4wJob).status = "queued" := by
  have h := (c4_retry_redownload c4wS "W").1 c4wJob (by decide)
  refine ⟨by decide, ?_, by decide, by decide⟩
  rw [h.2.1, h.1]

theorem storeOp_done_filename (st : Store) (op : StoreOp)
    (h : ∀ j ∈ st, j.status = "done" → j.filename.isSome) :
    ∀ j ∈ applyStoreOp st op, j.status = "done" → j.filename.isSome := by
  intro j hj hdone
  cases op with
  | create id url now =>
      rcases List.mem_append.mp hj with hmem | hmem
      · exact h j hmem hdone
      · simp only [List.mem_singleton] at hmem
        subst hmem
        simp [newJob] at hdone
  | markDownloading id now =>
      rcases List.mem_map.mp hj with ⟨x, hx, rfl⟩
      by_cases hid : x.id = id
      · simp [hid] at hdone
      · simp only [if_neg hid] at hdone ⊢
        exact h x hx hdone
  | markDone id fn now =>
      rcases List.mem_map.mp hj with ⟨x, hx, rfl⟩
      by_cases hid : x.id = id
      · simp [hid]
      · simp only [if_neg hid] at hdone ⊢
        exact h x hx hdone
  | markFailed id err now =>
      rcases List.mem_map.mp hj with ⟨x, hx, rfl⟩
      by_cases hid : x.id = id
      · simp [hid] at hdone
      · simp only [if_neg hid] at hdone ⊢
        exact h x hx hdone
  | retryOp id =>
      rcases List.mem_map.mp hj with ⟨x, hx, rfl⟩
      by_cases hid : x.id = id
      · simp [hid] at hdone
      · simp only [if_neg hid] at hdone ⊢
        exact h x hx hdone
  | redownloadOp id =>
      rcases List.mem_map.mp hj with ⟨x, hx, rfl⟩
      by_cases hid : x.id = id
      · simp [hid] at hdone
      · simp only [if_neg hid] at hdone ⊢
        exact h x hx hdone
  | importOp i =>
      by_cases hex : check_job_exists st i.id
      · simp only [applyStoreOp, import_job, if_pos hex] at hj
        exact h j hj hdone
      · simp only [applyStoreOp, import_job, if_neg hex] at hj
        rcases List.mem_append.mp hj with hmem | hmem
        · exact h j hmem hdone
        · simp only [List.mem_singleton] at hmem
          subst hmem
          simp at hdone

/-- C5 counterexample: creating a job, completing it with filename
`f.mp4`, then redownloading it (an explicitly supported flow) leaves a
`queued` job whose filename is still set, so `filename` set does not
imply status `done`: the claimed equivalence fails on this store. -/
theorem c5_counterexample :
    (get_job (applyStoreOps []
        [.create "a" "u" 0, .markDone "a" "f.mp4" 1, .redownloadOp "a"])
        "a").map (fun j => (j.status, j.filename))
      = some ("queued", some "f.mp4") ∧
    ¬ (∀ j ∈ applyStoreOps []
        [.create "a" "u" 0, .markDone "a" "f.mp4" 1, .redownloadOp "a"],
        (j.filename.isSome ↔ j.status = "done")) := by
  constructor
  · decide
  · decide

/-- C5 (corrected): over every sequence of the store operations (create,
mark downloading, mark done, mark failed, retry, redownload, import)
starting from the empty store, a job with status `done` always has its
filename set; the converse direction of the claim fails because retry,
redownload and import leave or record a filename on a non-`done` row
(see the counterexample). -/
theorem c5_done_has_filename (ops : List StoreOp) :
    ∀ j ∈ applyStoreOps [] ops, j.status = "done" → j.filename.isSome := by
  suffices hgen : ∀ (st : Store),
      (∀ j ∈ st, j.status = "done" → j.filename.isSome) →
      ∀ j ∈ applyStoreOps st ops, j.status = "done" → j.filename.isSome by
    exact hgen [] (by intro j hj; exact absurd hj (List.not_mem_nil j))
  induction ops with
  | nil => intro st h; exact h
  | cons op rest ih =>
      intro st h
      exact ih (applyStoreOp st op) (storeOp_done_filename st op h)

def c5wJob : Job :=
  { id := "a", url := "u", status := "done", progress := 100, eta := none,
    filename := some "f.mp4", createdAt := 0, startedAt := none,
    completedAt := some 1, retries := 0, error := none }

theorem c5_witness : c5wJob.filename.isSome :=
  c5_done_has_filename [.create "a" "u" 0, .markDone "a" "f.mp4" 1] c5wJob
    (by decide) (by decide)

/-- C9 counterexample: after `run_sync` has transitioned to `running`, a
spawn failure panics the spawned task (`spawn().expect(..)`), so the
status stays `running` and no error is recorded — the claim that a
spawn failure yields status `error` fails. -/
theorem c9_counterexample :
    (run_sync_child (run_sync_start syncDefault "remote:videos").2 []
        .spawnPanic 5).status = "running" ∧
    (run_sync_child (run_sync_start syncDefault "remote:videos").2 []
        .spawnPanic 5).error = none ∧
    ¬ (run_sync_child (run_sync_start syncDefault "remote:videos").2 []
        .spawnPanic 5).status = "error" := by
  refine ⟨by decide, by decide, by decide⟩

/-- C9 (corrected): if the copy process exits non-zero, the sync status
becomes `error` with the exit code recorded in the error field (code -1
when the OS reports none), and if waiting on the spawned child fails the
process error is recorded likewise; the model contains no retry
transition (no automatic retry).  However a spawn failure panics the
supervision task and leaves the status as it was (`running`), recording
nothing. -/
theorem c9_sync_failure (st : SyncState) (lines : List String)
    (code : Option Int) (now : Int) (e : String) :
    ((run_sync_child st lines (.exited false code) now).status = "error" ∧
     (run_sync_child st lines (.exited false code) now).error =
       some ("Sync failed with exit code " ++ toString (code.getD (-1)))) ∧
    ((run_sync_child st lines (.waitErr e) now).status = "error" ∧
     (run_sync_child st lines (.waitErr e) now).error = some e) ∧
    run_sync_child st lines .spawnPanic now = st := by
  refine ⟨⟨?_, ?_⟩, ⟨?_, ?_⟩, ?_⟩ <;> simp [run_sync_child]

theorem eraseFirstPath_skip (pre post : List FileItem) (x : FileItem)
    (p : String) (hx : x.path = p) (hpre : ∀ y ∈ pre, y.path ≠ p) :
    eraseFirstPath (pre ++ x :: post) p = pre ++ post := by
  induction pre with
  | nil => simp [eraseFirstPath, hx]
  | cons y rest ih =>
      have hy : y.path ≠ p := hpre y (by simp)
      simp only [List.cons_append, eraseFirstPath, if_neg hy, List.append_eq]
      rw [ih (fun z hz => hpre z (by simp [hz]))]

theorem eraseFirstPath_id (l : List FileItem) (p : String)
    (h : ∀ y ∈ l, y.path ≠ p) : eraseFirstPath l p = l := by
  induction l with
  | nil => rfl
  | cons y rest ih =>
      have hy : y.path ≠ p := h y (by simp)
      simp only [eraseFirstPath, if_neg hy]
      rw [ih (fun z hz => h z (by simp [hz]))]

/-- C10 (confirmed): the file index never deduplicates by path.
`add_file` for an already-present path appends a second entry, which both
the grouped snapshot and `count_files_after` count separately, while
`remove_file` drops exactly the first positional match and leaves any
later duplicate in place (and does nothing to the list when no entry
matches). -/
theorem c10_no_dedup (st : FIState) (item x : FileItem)
    (pre post : List FileItem) (ts : Int) (p : String) :
    ((add_file st true item).files = st.files ++ [item]) ∧
    (x ∈ st.files → x.path = item.path →
      2 ≤ (add_file st true item).files.countP (fun f => f.path = item.path)) ∧
    (count_files_after (add_file st true item) ts
      = count_files_after st ts + (if ts < item.createdAt then 1 else 0)) ∧
    (x ∈ st.files → x.path = item.path → x.dateFolder = item.dateFolder →
      2 ≤ ((get_index (add_file st true item)).1.byDate item.dateFolder).countP
            (fun f => f.path = item.path)) ∧
    (x.path = p → (∀ y ∈ pre, y.path ≠ p) →
      eraseFirstPath (pre ++ x :: post) p = pre ++ post) ∧
    ((remove_file st p).files = eraseFirstPath st.files p) ∧
    ((∀ y ∈ st.files, y.path ≠ p) → (remove_file st p).files = st.files) := by
  refine ⟨rfl, ?_, ?_, ?_, ?_, rfl, ?_⟩
  · intro hx hpath
    have h1 : 0 < st.files.countP (fun f => f.path = item.path) :=
      List.countP_pos_iff.mpr ⟨x, hx, by simp [hpath]⟩
    have h2 : (st.files ++ [item]).countP (fun f => f.path = item.path)
        = st.files.countP (fun f => f.path = item.path) + 1 := by
      rw [List.countP_append]; simp
    show 2 ≤ (st.files ++ [item]).countP (fun f => f.path = item.path)
    omega
  · show ((st.files ++ [item]).filter (fun f => ts < f.createdAt)).length
      = (st.files.filter (fun f => ts < f.createdAt)).length
        + (if ts < item.createdAt then 1 else 0)
    rw [List.filter_append]
    by_cases h : ts < item.createdAt <;> simp [h]
  · intro hx hpath hdate
    show 2 ≤ (List.insertionSort createdDesc
        ((st.files ++ [item]).filter
          (fun f => f.dateFolder = item.dateFolder))).countP
        (fun f => f.path = item.path)
    rw [(List.perm_insertionSort createdDesc _).countP_eq]
    rw [List.filter_append, List.countP_append]
    have h1 : 0 < ((st.files.filter
        (fun f => f.dateFolder = item.dateFolder)).countP
        (fun f => f.path = item.path)) :=
      List.countP_pos_iff.mpr ⟨x, List.mem_filter.mpr ⟨hx, by simp [hdate]⟩,
        by simp [hpath]⟩
    have h2 : (([item].filter
        (fun f => f.dateFolder = item.dateFolder)).countP
        (fun f => f.path = item.path)) = 1 := by simp
    omega
  · exact eraseFirstPath_skip pre post x p
  · exact eraseFirstPath_id st.files p

def c10old : FileItem :=
  { path := "data/2026-10-12/v.mp4", name := "v.mp4", size := 1,
    createdAt := 10, dateFolder := "2026-10-12" }

def c10new : FileItem :=
  { path := "data/2026-10-12/v.mp4", name := "v.mp4", size := 2,
    createdAt := 20, dateFolder := "2026-10-12" }

def c10st : FIState := { files := [c10old], lastScan := 0, cached := none }

theorem c10_witness :
    (add_file c10st true c10new).files = c10st.files ++ [c10new] ∧
    2 ≤ (add_file c10st true c10new).files.countP
          (fun f => f.path = c10new.path) ∧
    count_files_after (add_file c10st true c10new) 5
      = count_files_after c10st 5 + (if (5:Int) < c10new.createdAt then 1 else 0) ∧
    2 ≤ ((get_index (add_file c10st true c10new)).1.byDate c10new.dateFolder).countP
          (fun f => f.path = c10new.path) ∧
    eraseFirstPath ([] ++ c10old :: [c10new]) c10old.path = [] ++ [c10new] := by
  have h := c10_no_dedup c10st c10new c10old [] [c10new] 5 c10old.path
  refine ⟨h.1, h.2.1 (by decide) (by decide), h.2.2.1,
    h.2.2.2.1 (by decide) (by decide) (by decide),
    h.2.2.2.2.1 (by decide) (by intro y hy; simp at hy)⟩

theorem processLine_found_some (acc : RunnerAcc) (l : OutLine) (nm : String)
    (h : lineFilename l = some nm) : (processLine acc l).found = nm := by
  cases ha : l.already with
  | some s =>
      rw [lineFilename, ha] at h
      simp only [Option.some.injEq] at h
      cases hp : l.prog <;> cases hd : l.dest <;> cases hm : l.merge <;>
        by_cases he : l.elapsedOk <;>
        simp [processLine, ha, hp, hd, hm, he, h]
  | none =>
      cases hm : l.merge with
      | some s =>
          rw [lineFilename, ha, hm] at h
          simp only [Option.some.injEq] at h
          cases hp : l.prog <;> cases hd : l.dest <;>
            by_cases he : l.elapsedOk <;>
            simp [processLine, ha, hp, hd, hm, he, h]
      | none =>
          cases hd : l.dest with
          | some s =>
              rw [lineFilename, ha, hm, hd] at h
              simp at h
              cases hp : l.prog <;> by_cases he : l.elapsedOk <;>
                simp [processLine, ha, hp, hd, hm, he, h]
          | none =>
              rw [lineFilename, ha, hm, hd] at h
              simp at h

theorem processLine_found_none (acc : RunnerAcc) (l : OutLine)
    (h : lineFilename l = none) : (processLine acc l).found = acc.found := by
  cases ha : l.already with
  | some s => rw [lineFilename, ha] at h; simp at h
  | none =>
      cases hm : l.merge with
      | some s => rw [lineFilename, ha, hm] at h; simp at h
      | none =>
          cases hd : l.dest with
          | some s => rw [lineFilename, ha, hm, hd] at h; simp at h
          | none =>
              cases hp : l.prog <;> by_cases he : l.elapsedOk <;>
                simp [processLine, ha, hm, hd, hp, he]

theorem foldl_found_none (lines : List OutLine) (acc : RunnerAcc)
    (h : ∀ l ∈ lines, lineFilename l = none) :
    (lines.foldl processLine acc).found = acc.found := by
  induction lines generalizing acc with
  | nil => rfl
  | cons l rest ih =>
      rw [List.foldl_cons, ih (processLine acc l) (fun x hx => h x (by simp [hx]))]
      exact processLine_found_none acc l (h l (by simp))

theorem exists_append_single (A : List (Int × Option Int))
    (x y : Int × Option Int) : ∃ u, A ++ [x, y] = u ++ [y] :=
  ⟨A ++ [x], by simp⟩

theorem processLine_already_updates (acc : RunnerAcc) (l : OutLine)
    (s : String) (ha : l.already = some s) :
    ∃ u, (processLine acc l).updates = u ++ [(100, some 0)] := by
  cases hp : l.prog <;> cases hd : l.dest <;> cases hm : l.merge <;>
    by_cases he : l.elapsedOk <;>
    simp [processLine, ha, hp, hd, hm, he] <;>
    first
      | exact ⟨_, rfl⟩
      | exact exists_append_single _ _ _

/-- C6 (confirmed): with a zero process exit, `run_yt_dlp` resolves the
filename from whichever filename-bearing stdout line (destination,
merged-into, or already-downloaded) came last — the returned name being
that line's captured path reduced to its final component — and falls back
to the fixed name `unknown.mp4` when no line ever supplied one; an
already-downloaded match persists progress 100 with zero remaining time
immediately, at that line. -/
theorem c6_last_filename_wins (pre post lines : List OutLine) (l : OutLine)
    (nm : String) (c : Option Int) (s : String) :
    (lineFilename l = some nm → nm ≠ "" →
      (∀ l2 ∈ post, lineFilename l2 = none) →
      run_yt_dlp_result (pre ++ l :: post) true c = .ok (rustFileName nm)) ∧
    ((∀ l2 ∈ lines, lineFilename l2 = none) →
      run_yt_dlp_result lines true c = .ok "unknown.mp4") ∧
    (l.already = some s →
      (runStdout (pre ++ [l])).updates.getLast? = some (100, some 0)) := by
  refine ⟨?_, ?_, ?_⟩
  · intro h hne hpost
    have hfound : (runStdout (pre ++ l :: post)).found = nm := by
      show ((pre ++ l :: post).foldl processLine runnerInit).found = nm
      rw [List.foldl_append, List.foldl_cons]
      rw [foldl_found_none post _ hpost]
      exact processLine_found_some _ l nm h
    simp [run_yt_dlp_result, hfound, hne]
  · intro h
    have hfound : (runStdout lines).found = "" := by
      show (lines.foldl processLine runnerInit).found = runnerInit.found
      exact foldl_found_none lines runnerInit h
    simp [run_yt_dlp_result, hfound]
  · intro ha
    have : runStdout (pre ++ [l])
        = processLine ((pre.foldl processLine runnerInit)) l := by
      show (pre ++ [l]).foldl processLine runnerInit = _
      rw [List.foldl_append, List.foldl_cons, List.foldl_nil]
    rw [this]
    rcases processLine_already_updates (pre.foldl processLine runnerInit) l s ha
      with ⟨u, hu⟩
    rw [hu, List.getLast?_concat]

def c6dest : OutLine :=
  { prog := none, etaRaw := none, elapsedOk := false,
    dest := some " data/2026-10-12/A.mp4", merge := none, already := none }

def c6prog : OutLine :=
  { prog := some 42, etaRaw := some "01:23", elapsedOk := true,
    dest := none, merge := none, already := none }

def c6already : OutLine :=
  { prog := none, etaRaw := none, elapsedOk := false,
    dest := none, merge := none, already := some "data/2026-10-12/Done.mp4" }

theorem c6_witness :
    run_yt_dlp_result ([c6dest] ++ c6already :: [c6prog]) true (some 0)
      = .ok "Done.mp4" ∧
    run_yt_dlp_result [c6prog] true (some 0) = .ok "unknown.mp4" ∧
    (runStdout ([c6dest] ++ [c6already])).updates.getLast? = some (100, some 0)
  := by
  have h := c6_last_filename_wins [c6dest] [c6prog] [c6prog] c6already
    "data/2026-10-12/Done.mp4" (some 0) "data/2026-10-12/Done.mp4"
  have e1 : rustFileName "data/2026-10-12/Done.mp4" = "Done.mp4" := by decide
  refine ⟨?_, h.2.1 (by decide), h.2.2 (by decide)⟩
  have h1 := h.1 (by decide) (by decide) (by decide)
  rw [e1] at h1
  exact h1

instance : IsTotal FileItem createdDesc :=
  ⟨fun a b => by unfold createdDesc; exact le_total b.createdAt a.createdAt⟩

instance : IsTrans FileItem createdDesc :=
  ⟨fun a b c hab hbc => by
    unfold createdDesc at hab hbc ⊢
    exact le_trans hbc hab⟩

theorem head_insertionSort_max (l : List FileItem) (x : FileItem)
    (hx : x ∈ l) (hmax : ∀ y ∈ l, y = x ∨ y.createdAt < x.createdAt) :
    (List.insertionSort createdDesc l).head? = some x := by
  have hperm := List.perm_insertionSort createdDesc l
  have hs := List.sorted_insertionSort createdDesc l
  cases hsort : List.insertionSort createdDesc l with
  | nil =>
      rw [hsort] at hperm
      exact absurd (hperm.symm.mem_iff.mp hx) (List.not_mem_nil x)
  | cons h t =>
      rw [hsort] at hperm hs
      have hh : h ∈ l := hperm.mem_iff.mp (by simp)
      rcases hmax h hh with rfl | hlt
      · rfl
      · exfalso
        have hxs : x ∈ h :: t := hperm.mem_iff.mpr hx
        have hxt : x ∈ t := by
          rcases List.mem_cons.mp hxs with rfl | hxt
          · exact absurd hlt (lt_irrefl _)
          · exact hxt
        have := (List.sorted_cons.mp hs).1 x hxt
        exact absurd (lt_of_lt_of_le hlt this) (lt_irrefl _)

/-- C8 (confirmed): `get_index` returns the cached view when one is
valid and otherwise recomputes the by-date grouping (each group being
the files of that date-folder, sorted by creation time descending) and
caches it before returning; every mutation — `add_file` of an existing
path, `remove_file`, `build_index` — invalidates the cache, so the
snapshot right after `add_file` reflects the new entry in its
date-folder group without a rescan, at the head of the group when it is
strictly the newest. -/
theorem c8_snapshot_cache (st : FIState) (c : FileIndexResponse)
    (item : FileItem) (p : String) (fs : List FileItem) (ts : Int) :
    (st.cached = some c → get_index st = (c, st)) ∧
    (st.cached = none →
      get_index st = (computeIndex st.files st.lastScan,
        { st with cached := some (computeIndex st.files st.lastScan) })) ∧
    (∀ d, ((computeIndex st.files st.lastScan).byDate d).Perm
        (st.files.filter (fun f => f.dateFolder = d)) ∧
      List.Sorted createdDesc ((computeIndex st.files st.lastScan).byDate d) ∧
      (∀ f ∈ (computeIndex st.files st.lastScan).byDate d,
        f.dateFolder = d)) ∧
    ((add_file st true item).cached = none ∧
      (remove_file st p).cached = none ∧
      (build_index st fs ts).cached = none) ∧
    (item ∈ (get_index (add_file st true item)).1.byDate item.dateFolder) ∧
    ((∀ y ∈ st.files, y.dateFolder = item.dateFolder →
        y = item ∨ y.createdAt < item.createdAt) →
      ((get_index (add_file st true item)).1.byDate item.dateFolder).head?
        = some item) := by
  refine ⟨?_, ?_, ?_, ⟨rfl, rfl, rfl⟩, ?_, ?_⟩
  · intro h; simp [get_index, h]
  · intro h; simp [get_index, h]
  · intro d
    refine ⟨List.perm_insertionSort createdDesc _,
      List.sorted_insertionSort createdDesc _, ?_⟩
    intro f hf
    have : f ∈ st.files.filter (fun f => f.dateFolder = d) :=
      (List.mem_insertionSort createdDesc).mp hf
    simpa using (List.mem_filter.mp this).2
  · show item ∈ List.insertionSort createdDesc
      (((st.files ++ [item]).filter (fun f => f.dateFolder = item.dateFolder)))
    rw [List.mem_insertionSort]
    exact List.mem_filter.mpr ⟨by simp, by simp⟩
  · intro hmax
    show (List.insertionSort createdDesc
      ((st.files ++ [item]).filter
        (fun f => f.dateFolder = item.dateFolder))).head? = some item
    apply head_insertionSort_max
    · exact List.mem_filter.mpr ⟨by simp, by simp⟩
    · intro y hy
      have hy2 := List.mem_filter.mp hy
      rcases List.mem_append.mp hy2.1 with hmem | hmem
      · exact hmax y hmem (by simpa using hy2.2)
      · simp only [List.mem_singleton] at hmem
        exact Or.inl hmem

def c8old : FileItem :=
  { path := "data/2026-10-12/a.mp4", name := "a.mp4", size := 5,
    createdAt := 10, dateFolder := "2026-10-12" }

def c8new : FileItem :=
  { path := "data/2026-10-12/b.mp4", name := "b.mp4", size := 6,
    createdAt := 20, dateFolder := "2026-10-12" }

def c8st : FIState := { files := [c8old], lastScan := 7, cached := none }

theorem c8_witness :
    (get_index c8st).2.cached = some (computeIndex c8st.files c8st.lastScan) ∧
    (add_file c8st true c8new).cached = none ∧
    c8new ∈ (get_index (add_file c8st true c8new)).1.byDate "2026-10-12" ∧
    ((get_index (add_file c8st true c8new)).1.byDate "2026-10-12").head?
      = some c8new := by
  have h := c8_snapshot_cache c8st (computeIndex c8st.files c8st.lastScan)
    c8new "x" [] 0
  refine ⟨?_, h.2.2.2.1.1, h.2.2.2.2.1, h.2.2.2.2.2 (by decide)⟩
  rw [h.2.1 rfl]

theorem foldq_count (jobs : List Job) (q : List String) (id : String) :
    (jobs.foldl (fun q j => if j.id ∈ q then q else q ++ [j.id]) q).count id
      = if id ∈ q then q.count id
        else if ∃ j ∈ jobs, j.id = id then q.count id + 1 else q.count id := by
  induction jobs generalizing q with
  | nil => by_cases hq : id ∈ q <;> simp [hq]
  | cons j rest ih =>
    rw [List.foldl_cons]
    by_cases hjq : j.id ∈ q
    · rw [if_pos hjq, ih]
      by_cases hq : id ∈ q
      · simp [hq]
      · have hne : j.id ≠ id := fun e => hq (e ▸ hjq)
        have hiff : (∃ x ∈ rest, x.id = id) ↔ (∃ x ∈ j :: rest, x.id = id) := by
          constructor
          · rintro ⟨x, hx, hxid⟩; exact ⟨x, by simp [hx], hxid⟩
          · rintro ⟨x, hx, hxid⟩
            rcases List.mem_cons.mp hx with rfl | hx2
            · exact absurd hxid hne
            · exact ⟨x, hx2, hxid⟩
        rw [if_neg hq, if_neg hq]
        by_cases hex : ∃ x ∈ rest, x.id = id
        · rw [if_pos hex, if_pos (hiff.mp hex)]
        · rw [if_neg hex, if_neg (fun h2 => hex (hiff.mpr h2))]
    · rw [if_neg hjq, ih]
      by_cases hq : id ∈ q
      · have hne : j.id ≠ id := fun e => hjq (e ▸ hq)
        have hmem : id ∈ q ++ [j.id] := List.mem_append.mpr (Or.inl hq)
        rw [if_pos hmem, if_pos hq, List.count_append]
        simp [List.count_cons, hne]
      · by_cases hj : j.id = id
        · have hmem : id ∈ q ++ [j.id] := by simp [hj]
          rw [if_pos hmem, if_neg hq,
            if_pos (show ∃ x ∈ j :: rest, x.id = id from ⟨j, by simp, hj⟩),
            List.count_append]
          simp [hj]
        · have hmem : id ∉ q ++ [j.id] := by
            intro h2
            rcases List.mem_append.mp h2 with h3 | h3
            · exact hq h3
            · simp at h3; exact hj h3.symm
          have hiff : (∃ x ∈ rest, x.id = id) ↔ (∃ x ∈ j :: rest, x.id = id) := by
            constructor
            · rintro ⟨x, hx, hxid⟩; exact ⟨x, by simp [hx], hxid⟩
            · rintro ⟨x, hx, hxid⟩
              rcases List.mem_cons.mp hx with rfl | hx2
              · exact absurd hxid hj
              · exact ⟨x, hx2, hxid⟩
          have hcnt : (q ++ [j.id]).count id = q.count id := by
            rw [List.count_append]; simp [List.count_cons, hj]
          rw [if_neg hmem, if_neg hq, hcnt]
          by_cases hex : ∃ x ∈ rest, x.id = id
          · rw [if_pos hex, if_pos (hiff.mp hex)]
          · rw [if_neg hex, if_neg (fun h2 => hex (hiff.mpr h2))]

theorem mem_get_queued (st : Store) (id : String) :
    (∃ j ∈ get_queued_jobs st, j.id = id)
      ↔ (∃ j ∈ st, j.status = "queued" ∧ j.id = id) := by
  unfold get_queued_jobs
  constructor
  · rintro ⟨j, hj, hid⟩
    have hf := List.mem_filter.mp ((List.mem_insertionSort createdLe).mp hj)
    exact ⟨j, hf.1, by simpa using hf.2, hid⟩
  · rintro ⟨j, hj, hstat, hid⟩
    exact ⟨j, (List.mem_insertionSort createdLe).mpr
      (List.mem_filter.mpr ⟨hj, by simp [hstat]⟩), hid⟩

/-- C3 (confirmed): `load_initial_state` first resets every job left
`downloading` to `failed` with error `crashed` (so no job is in
`downloading` afterwards and nothing is dispatched by the reconcile
itself — registry and runners are untouched), then enqueues each id that
is `queued` in the reset store exactly once, suppressing ids already in
the pending queue (whose occurrence counts are unchanged), and signals
the scheduler exactly once. -/
theorem c3_reconcile (s : SchedState) (id : String) :
    ((load_initial_state s).store = reset_crashed_jobs s.store) ∧
    (∀ j ∈ s.store, j.status = "downloading" →
      ({ j with status := "failed", error := some "crashed" } : Job)
        ∈ (load_initial_state s).store) ∧
    (∀ j ∈ (load_initial_state s).store, j.status ≠ "downloading") ∧
    (id ∈ s.queue →
      (load_initial_state s).queue.count id = s.queue.count id) ∧
    (id ∉ s.queue →
      ((∃ j ∈ reset_crashed_jobs s.store, j.status = "queued" ∧ j.id = id) →
        (load_initial_state s).queue.count id = 1) ∧
      (¬ (∃ j ∈ reset_crashed_jobs s.store, j.status = "queued" ∧ j.id = id) →
        (load_initial_state s).queue.count id = 0)) ∧
    ((load_initial_state s).signals = s.signals + 1) ∧
    (load_initial_state s).registry = s.registry ∧
    (load_initial_state s).runners = s.runners := by
  have hq : (load_initial_state s).queue
      = (get_queued_jobs (reset_crashed_jobs s.store)).foldl
          (fun q j => if j.id ∈ q then q else q ++ [j.id]) s.queue := rfl
  refine ⟨rfl, ?_, ?_, ?_, ?_, rfl, rfl, rfl⟩
  · intro j hj hdl
    show _ ∈ reset_crashed_jobs s.store
    exact List.mem_map.mpr ⟨j, hj, by simp [hdl]⟩
  · intro j hj
    rcases List.mem_map.mp hj with ⟨x, _, rfl⟩
    by_cases hdl : x.status = "downloading"
    · simp [hdl]
    · simp [hdl]
  · intro hmem
    rw [hq, foldq_count, if_pos hmem]
  · intro hmem
    constructor
    · intro hex
      rw [hq, foldq_count, if_neg hmem,
        if_pos ((mem_get_queued (reset_crashed_jobs s.store) id).mpr hex),
        List.count_eq_zero.mpr hmem]
    · intro hex
      rw [hq, foldq_count, if_neg hmem,
        if_neg (fun h2 =>
          hex ((mem_get_queued (reset_crashed_jobs s.store) id).mp h2)),
        List.count_eq_zero.mpr hmem]

def c3down : Job :=
  { id := "D", url := "u", status := "downloading", progress := 40,
    eta := some 9, filename := none, createdAt := 0, startedAt := some 1,
    completedAt := none, retries := 0, error := none }

def c3q1 : Job := newJob "Q1" "u1" 2

def c3q2 : Job := newJob "Q2" "u2" 3

def c3s : SchedState :=
  { store := [c3down, c3q1, c3q2], queue := ["Q1"], registry := [],
    runners := [], cancelled := [], nextTok := 0, maxConc := 2, signals := 0 }

theorem c3_witness :
    ({ c3down with status := "failed", error := some "crashed" } : Job)
      ∈ (load_initial_state c3s).store ∧
    (load_initial_state c3s).queue.count "Q1" = c3s.queue.count "Q1" ∧
    (load_initial_state c3s).queue.count "Q2" = 1 ∧
    (load_initial_state c3s).signals = 1 := by
  have h1 := c3_reconcile c3s "Q1"
  have h2 := c3_reconcile c3s "Q2"
  refine ⟨h1.2.1 c3down (by decide) (by decide),
    h1.2.2.2.1 (by decide), ?_, h1.2.2.2.2.2.1⟩
  exact (h2.2.2.2.2.1 (by decide)).1 ⟨c3q2, by decide, by decide, by decide⟩

theorem removeKey_sublist (l : List (String × Nat)) (k : String) :
    (removeKey l k).Sublist l := by
  induction l with
  | nil => simp [removeKey]
  | cons p rest ih =>
      by_cases h : p.1 = k
      · simp only [removeKey, if_pos h]
        exact (List.sublist_cons_self p rest)
      · simp only [removeKey, if_neg h]
        exact ih.cons₂ p

theorem removePair_sublist (l : List (String × Nat)) (p : String × Nat) :
    (removePair l p).Sublist l := by
  induction l with
  | nil => simp [removePair]
  | cons q rest ih =>
      by_cases h : q = p
      · simp only [removePair, if_pos h]
        exact (List.sublist_cons_self q rest)
      · simp only [removePair, if_neg h]
        exact ih.cons₂ q

theorem removeFirstStr_sublist (l : List String) (x : String) :
    (removeFirstStr l x).Sublist l := by
  induction l with
  | nil => simp [removeFirstStr]
  | cons y rest ih =>
      by_cases h : y = x
      · simp only [removeFirstStr, if_pos h]
        exact (List.sublist_cons_self y rest)
      · simp only [removeFirstStr, if_neg h]
        exact ih.cons₂ y

theorem insertReplace_length_le (l : List (String × Nat)) (k : String) (v : Nat) :
    (insertReplace l k v).length ≤ l.length + 1 := by
  induction l with
  | nil => simp [insertReplace]
  | cons p rest ih =>
      by_cases h : p.1 = k
      · simp [insertReplace, if_pos h]
      · simp only [insertReplace, if_neg h, List.length_cons]
        omega

theorem keys_insertReplace_self (l : List (String × Nat)) (k : String) (v : Nat) :
    k ∈ (insertReplace l k v).map Prod.fst := by
  induction l with
  | nil => simp [insertReplace]
  | cons p rest ih =>
      by_cases h : p.1 = k
      · simp [insertReplace, if_pos h]
      · simp only [insertReplace, if_neg h, List.map_cons]
        exact List.mem_cons_of_mem p.1 ih

theorem keys_insertReplace_super (l : List (String × Nat)) (k k2 : String)
    (v : Nat) (h : k2 ∈ l.map Prod.fst) :
    k2 ∈ (insertReplace l k v).map Prod.fst := by
  induction l with
  | nil => simp at h
  | cons p rest ih =>
      by_cases hp : p.1 = k
      · simp only [insertReplace, if_pos hp, List.map_cons] at *
        rcases List.mem_cons.mp h with h2 | h2
        · exact List.mem_cons.mpr (Or.inl (hp ▸ h2))
        · exact List.mem_cons.mpr (Or.inr h2)
      · simp only [insertReplace, if_neg hp, List.map_cons] at *
        rcases List.mem_cons.mp h with h2 | h2
        · exact List.mem_cons.mpr (Or.inl h2)
        · exact List.mem_cons.mpr (Or.inr (ih h2))

theorem keys_insertReplace_sub (l : List (String × Nat)) (k k2 : String)
    (v : Nat) (h : k2 ∈ (insertReplace l k v).map Prod.fst) :
    k2 = k ∨ k2 ∈ l.map Prod.fst := by
  induction l with
  | nil => simpa [insertReplace] using h
  | cons p rest ih =>
      by_cases hp : p.1 = k
      · simp only [insertReplace, if_pos hp, List.map_cons] at h
        rcases List.mem_cons.mp h with h2 | h2
        · exact Or.inl h2
        · exact Or.inr (by simp [h2])
      · simp only [insertReplace, if_neg hp, List.map_cons] at h
        rcases List.mem_cons.mp h with h2 | h2
        · exact Or.inr (by simp [h2])
        · rcases ih h2 with h3 | h3
          · exact Or.inl h3
          · exact Or.inr (by simp [h3])

theorem keys_insertReplace_nodup (l : List (String × Nat)) (k : String)
    (v : Nat) (h : (l.map Prod.fst).Nodup) :
    ((insertReplace l k v).map Prod.fst).Nodup := by
  induction l with
  | nil => simp [insertReplace]
  | cons p rest ih =>
      simp only [List.map_cons, List.nodup_cons] at h
      by_cases hp : p.1 = k
      · simp only [insertReplace, if_pos hp, List.map_cons, List.nodup_cons]
        exact ⟨hp ▸ h.1, h.2⟩
      · simp only [insertReplace, if_neg hp, List.map_cons, List.nodup_cons]
        refine ⟨fun hmem => ?_, ih h.2⟩
        rcases keys_insertReplace_sub rest k p.1 v hmem with h2 | h2
        · exact hp h2
        · exact h.1 h2

theorem keys_removeKey_of_ne (l : List (String × Nat)) (k k2 : String)
    (hne : k2 ≠ k) (h : k2 ∈ l.map Prod.fst) :
    k2 ∈ (removeKey l k).map Prod.fst := by
  induction l with
  | nil => simp at h
  | cons p rest ih =>
      by_cases hp : p.1 = k
      · simp only [removeKey, if_pos hp]
        simp only [List.map_cons] at h
        rcases List.mem_cons.mp h with h2 | h2
        · exact absurd (h2.trans hp) hne
        · exact h2
      · simp only [removeKey, if_neg hp, List.map_cons] at *
        rcases List.mem_cons.mp h with h2 | h2
        · exact List.mem_cons.mpr (Or.inl h2)
        · exact List.mem_cons.mpr (Or.inr (ih h2))

theorem lookupKey_removeKey_self (l : List (String × Nat)) (k : String)
    (h : (l.map Prod.fst).Nodup) : lookupKey (removeKey l k) k = none := by
  induction l with
  | nil => rfl
  | cons p rest ih =>
      simp only [List.map_cons, List.nodup_cons] at h
      by_cases hp : p.1 = k
      · simp only [removeKey, if_pos hp]
        cases hl : lookupKey rest k with
        | none => rfl
        | some v =>
            exfalso
            have : k ∈ rest.map Prod.fst := by
              clear ih h hp
              induction rest with
              | nil => simp [lookupKey] at hl
              | cons q r ihr =>
                  by_cases hq : q.1 = k
                  · simp [hq]
                  · simp only [lookupKey, if_neg hq] at hl
                    simp [ihr hl]
            exact h.1 (hp ▸ this)
      · simp only [removeKey, if_neg hp, lookupKey, if_neg hp]
        exact ih h.2

theorem removeFirstStr_count (q : List String) (id : String) (h : id ∈ q) :
    (removeFirstStr q id).count id + 1 = q.count id := by
  induction q with
  | nil => simp at h
  | cons y rest ih =>
      by_cases hy : y = id
      · simp [removeFirstStr, hy, List.count_cons]
      · simp only [removeFirstStr, if_neg hy, List.count_cons]
        have hmem : id ∈ rest := by
          rcases List.mem_cons.mp h with h2 | h2
          · exact absurd h2.symm hy
          · exact h2
        have := ih hmem
        simp only [beq_iff_eq, if_neg hy]
        omega

theorem removeFirstStr_id_of_not_mem (q : List String) (id : String)
    (h : id ∉ q) : removeFirstStr q id = q := by
  induction q with
  | nil => rfl
  | cons y rest ih =>
      have hy : y ≠ id := fun e => h (by simp [e])
      simp only [removeFirstStr, if_neg hy]
      rw [ih (fun e => h (by simp [e]))]

theorem enabled_submit_fresh (s : SchedState) (id url : String) (now : Int)
    (h : enabledAct s (.submit id url now) = true) :
    ¬ ∃ j ∈ s.store, j.id = id := by
  simp only [enabledAct, Bool.not_eq_true'] at h
  intro hex
  rw [(check_job_exists_iff s.store id).mpr hex] at h
  cases h

/-- Which actions change the concurrency ceiling. -/
def noSetMax : Act → Bool
  | .setMax _ => false
  | _ => true

/-- The invariant behind the concurrency bound: the ceiling is constant,
the registry is within the ceiling, store ids are unique, and every
`downloading` row has a registry entry. -/
def InvC1 (n : Nat) (s : SchedState) : Prop :=
  s.maxConc = n ∧ s.registry.length ≤ n ∧
  (s.store.map (fun j => j.id)).Nodup ∧
  ∀ j ∈ s.store, j.status = "downloading" → j.id ∈ s.registry.map Prod.fst

theorem ids_mark_downloading (st : Store) (id : String) (now : Int) :
    (mark_downloading st id now).map (fun j => j.id) = st.map (fun j => j.id) :=
  ids_map_cond st (fun j => j.id = id) _ (fun _ => rfl)

theorem ids_mark_done (st : Store) (id fn : String) (now : Int) :
    (mark_done st id fn now).map (fun j => j.id) = st.map (fun j => j.id) :=
  ids_map_cond st (fun j => j.id = id) _ (fun _ => rfl)

theorem ids_mark_failed (st : Store) (id err : String) (now : Int) :
    (mark_failed st id err now).map (fun j => j.id) = st.map (fun j => j.id) :=
  ids_map_cond st (fun j => j.id = id) _ (fun _ => rfl)

theorem ids_increment_retry (st : Store) (id : String) :
    (increment_retry st id).map (fun j => j.id) = st.map (fun j => j.id) :=
  ids_map_cond st (fun j => j.id = id) _ (fun _ => rfl)

theorem invC1_start (n : Nat) (s : SchedState) (job : Job) (now : Int)
    (hinv : InvC1 n s) (hroom : s.registry.length < s.maxConc) :
    InvC1 n (start_download_task s job now) := by
  obtain ⟨hmax, _, hids, hdl⟩ := hinv
  refine ⟨hmax, ?_, ?_, ?_⟩
  · calc (insertReplace s.registry job.id s.nextTok).length
        ≤ s.registry.length + 1 := insertReplace_length_le _ _ _
      _ ≤ n := by omega
  · show ((mark_downloading s.store job.id now).map (fun j => j.id)).Nodup
    rw [ids_mark_downloading]
    exact hids
  · intro j2 hj2 hst
    rcases List.mem_map.mp hj2 with ⟨x, hx, rfl⟩
    by_cases hxid : x.id = job.id
    · simp only [if_pos hxid]
      show x.id ∈ _
      rw [hxid]
      exact keys_insertReplace_self _ _ _
    · simp only [if_neg hxid] at hst ⊢
      exact keys_insertReplace_super _ _ _ _ (hdl x hx hst)

theorem invC1_go (n fuel : Nat) (now : Int) (s : SchedState)
    (hinv : InvC1 n s) : InvC1 n (process_next_go fuel now s) := by
  induction fuel generalizing s with
  | zero => exact hinv
  | succ fuel ih =>
      rw [process_next_go]
      by_cases hfull : s.maxConc ≤ s.registry.length
      · rw [if_pos hfull]; exact hinv
      · rw [if_neg hfull]
        cases hq : s.queue with
        | nil => exact hinv
        | cons id rest =>
            show InvC1 n (match get_job s.store id with
              | some job =>
                  if job.status = "queued" then
                    process_next_go fuel now
                      (start_download_task { s with queue := rest } job now)
                  else process_next_go fuel now { s with queue := rest }
              | none => process_next_go fuel now { s with queue := rest })
            have hinv1 : InvC1 n { s with queue := rest } :=
              ⟨hinv.1, hinv.2.1, hinv.2.2.1, hinv.2.2.2⟩
            cases hg : get_job s.store id with
            | none => exact ih _ hinv1
            | some job =>
                show InvC1 n (if job.status = "queued" then
                    process_next_go fuel now
                      (start_download_task { s with queue := rest } job now)
                  else process_next_go fuel now { s with queue := rest })
                by_cases hst : job.status = "queued"
                · rw [if_pos hst]
                  exact ih _ (invC1_start n _ job now hinv1
                    (Nat.lt_of_not_le hfull))
                · rw [if_neg hst]
                  exact ih _ hinv1

theorem invC1_step (n : Nat) (s : SchedState) (a : Act)
    (hinv : InvC1 n s) (hen : enabledAct s a = true)
    (hns : noSetMax a = true) : InvC1 n (applyAct s a) := by
  obtain ⟨hmax, hlen, hids, hdl⟩ := hinv
  cases a with
  | submit id url now =>
      have hfresh := enabled_submit_fresh s id url now hen
      refine ⟨hmax, hlen, ?_, ?_⟩
      · show ((s.store ++ [newJob id url now]).map (fun j => j.id)).Nodup
        rw [List.map_append, List.nodup_append]
        refine ⟨hids, List.nodup_singleton _, ?_⟩
        intro x hx hx2
        simp only [List.map_cons, List.map_nil, List.mem_singleton] at hx2
        rcases List.mem_map.mp hx with ⟨j, hj, rfl⟩
        exact hfresh ⟨j, hj, hx2⟩
      · intro j hj hst
        rcases List.mem_append.mp hj with hmem | hmem
        · exact hdl j hmem hst
        · simp only [List.mem_singleton] at hmem
          subst hmem
          simp [newJob] at hst
  | cancel id =>
      show InvC1 n (cancel_job s id)
      unfold cancel_job
      cases lookupKey s.registry id with
      | some tok => exact ⟨hmax, hlen, hids, hdl⟩
      | none => exact ⟨hmax, hlen, hids, hdl⟩
  | retry id =>
      show InvC1 n (retry_job s id).2
      unfold retry_job
      cases hg : get_job s.store id with
      | none => exact ⟨hmax, hlen, hids, hdl⟩
      | some j =>
          refine ⟨hmax, hlen, ?_, ?_⟩
          · show ((increment_retry s.store id).map (fun j => j.id)).Nodup
            rw [ids_increment_retry]
            exact hids
          · intro j2 hj2 hst
            rcases List.mem_map.mp hj2 with ⟨x, hx, rfl⟩
            by_cases hxid : x.id = id
            · simp [if_pos hxid] at hst
            · simp only [if_neg hxid] at hst ⊢
              exact hdl x hx hst
  | redownload id =>
      show InvC1 n (redownload_job s id).2
      unfold redownload_job
      cases hg : get_job s.store id with
      | none => exact ⟨hmax, hlen, hids, hdl⟩
      | some j =>
          refine ⟨hmax, hlen, ?_, ?_⟩
          · show ((redownload_update s.store id).map (fun j => j.id)).Nodup
            rw [redownload_update_eq, ids_increment_retry]
            exact hids
          · intro j2 hj2 hst
            rcases List.mem_map.mp hj2 with ⟨x, hx, rfl⟩
            by_cases hxid : x.id = id
            · simp [if_pos hxid] at hst
            · simp only [if_neg hxid] at hst ⊢
              exact hdl x hx hst
  | setMax m => simp [noSetMax] at hns
  | pass now => exact invC1_go n s.queue.length now s ⟨hmax, hlen, hids, hdl⟩
  | complete id tok res now =>
      have key : ∀ (st2 : Store),
          (st2.map (fun j => j.id)).Nodup →
          (∀ j ∈ st2, j.status = "downloading" →
            j.id ∈ s.registry.map Prod.fst ∧ j.id ≠ id) →
          InvC1 n (notifyOne
            { s with
              store := st2,
              registry := removeKey s.registry id,
              runners := removePair s.runners (id, tok) }) := by
        intro st2 hnd hsub
        refine ⟨hmax, ?_, hnd, ?_⟩
        · calc (removeKey s.registry id).length
              ≤ s.registry.length := (removeKey_sublist _ _).length_le
            _ ≤ n := hlen
        · intro j hj hst
          obtain ⟨hmem, hne⟩ := hsub j hj hst
          exact keys_removeKey_of_ne _ _ _ hne hmem
      have hfail : ∀ (err : String),
          (∀ j ∈ mark_failed s.store id err now, j.status = "downloading" →
            j.id ∈ s.registry.map Prod.fst ∧ j.id ≠ id) := by
        intro err j hj hst
        rcases List.mem_map.mp hj with ⟨x, hx, rfl⟩
        by_cases hxid : x.id = id
        · simp [if_pos hxid] at hst
        · simp only [if_neg hxid] at hst ⊢
          exact ⟨hdl x hx hst, hxid⟩
      have hfailids : ∀ (err : String),
          ((mark_failed s.store id err now).map (fun j => j.id)).Nodup := by
        intro err
        rw [ids_mark_failed]
        exact hids
      cases res with
      | ok fn =>
          refine key (mark_done s.store id fn now) ?_ ?_
          · rw [ids_mark_done]
            exact hids
          · intro j hj hst
            rcases List.mem_map.mp hj with ⟨x, hx, rfl⟩
            by_cases hxid : x.id = id
            · simp [if_pos hxid] at hst
            · simp only [if_neg hxid] at hst ⊢
              exact ⟨hdl x hx hst, hxid⟩
      | error msg =>
          show InvC1 n (complete_job s id tok (.error msg) now)
          by_cases hcc : containsCancelled msg
          · by_cases hex : check_job_exists s.store id
            · have he : complete_job s id tok (.error msg) now
                  = notifyOne
                    { s with
                      store := mark_failed s.store id "Cancelled" now,
                      registry := removeKey s.registry id,
                      runners := removePair s.runners (id, tok) } := by
                simp [complete_job, hcc, hex]
              rw [he]
              exact key _ (hfailids _) (hfail _)
            · have he : complete_job s id tok (.error msg) now
                  = notifyOne
                    { s with
                      store := s.store,
                      registry := removeKey s.registry id,
                      runners := removePair s.runners (id, tok) } := by
                simp [complete_job, hcc, hex]
              rw [he]
              refine key s.store hids ?_
              intro j hj hst
              refine ⟨hdl j hj hst, fun he2 => ?_⟩
              have : check_job_exists s.store id = true :=
                (check_job_exists_iff _ _).mpr ⟨j, hj, he2⟩
              simp [this] at hex
          · have he : complete_job s id tok (.error msg) now
                = notifyOne
                  { s with
                    store := mark_failed s.store id msg now,
                    registry := removeKey s.registry id,
                    runners := removePair s.runners (id, tok) } := by
              simp [complete_job, hcc]
            rw [he]
            exact key _ (hfailids _) (hfail _)

theorem invC1_steps (n : Nat) (s t : SchedState)
    (h : Steps (fun _ a => noSetMax a = true) s t) (hinv : InvC1 n s) :
    InvC1 n t := by
  induction h with
  | refl => exact hinv
  | tail t a h hen hp ih => exact invC1_step n t a ih hen hp

theorem invC1_init (n : Nat) : InvC1 n (initState n) :=
  ⟨rfl, Nat.zero_le n, List.nodup_nil, fun j hj => absurd hj (List.not_mem_nil j)⟩

theorem downloading_le_registry (s : SchedState)
    (hn : (s.store.map (fun j => j.id)).Nodup)
    (hsub : ∀ j ∈ s.store, j.status = "downloading" →
      j.id ∈ s.registry.map Prod.fst) :
    (s.store.filter (fun j => j.status = "downloading")).length
      ≤ s.registry.length := by
  have h1 : (((s.store.filter (fun j => j.status = "downloading")).map
      (fun j => j.id))).Nodup :=
    hn.sublist ((List.filter_sublist s.store).map _)
  have h2 : ((s.store.filter (fun j => j.status = "downloading")).map
      (fun j => j.id)) ⊆ s.registry.map Prod.fst := by
    intro x hx
    rcases List.mem_map.mp hx with ⟨j, hj, rfl⟩
    have hf := List.mem_filter.mp hj
    exact hsub j hf.1 (by simpa using hf.2)
  calc (s.store.filter (fun j => j.status = "downloading")).length
      = ((s.store.filter (fun j => j.status = "downloading")).map
          (fun j => j.id)).length := (List.length_map _ _).symm
    _ ≤ (s.registry.map Prod.fst).length :=
        (List.subperm_of_subset h1 h2).length_le
    _ = s.registry.length := List.length_map _ _

/-- The scenario state: ceiling 2, submissions A, B, C, one scheduling
pass, no completions. -/
def c1scn : SchedState :=
  applyAct (applyAct (applyAct (applyAct (initState 2)
    (.submit "A" "u" 0)) (.submit "B" "u" 1)) (.submit "C" "u" 2)) (.pass 3)

/-- C1 (corrected): in every run in which the concurrency ceiling is
never changed after startup (no `set_max_concurrent` action), at most N
jobs are registered active and at most N store rows are `downloading` at
any reachable state; in the scenario with ceiling 2 and submissions A,
B, C with no completions, exactly A and B are `downloading` and C stays
`queued`.  (Lowering the ceiling while jobs run breaks the bound, since
running jobs are never preempted — see the counterexample.) -/
theorem c1_bounded_concurrency :
    (∀ (n : Nat) (s : SchedState),
      Steps (fun _ a => noSetMax a = true) (initState n) s →
      s.registry.length ≤ n ∧
      (s.store.filter (fun j => j.status = "downloading")).length ≤ n) ∧
    ((get_job c1scn.store "A").map (fun j => j.status) = some "downloading" ∧
     (get_job c1scn.store "B").map (fun j => j.status) = some "downloading" ∧
     (get_job c1scn.store "C").map (fun j => j.status) = some "queued" ∧
     c1scn.queue = ["C"] ∧ c1scn.registry.map Prod.fst = ["A", "B"]) := by
  constructor
  · intro n s h
    have hinv := invC1_steps n (initState n) s h (invC1_init n)
    refine ⟨hinv.2.1, ?_⟩
    calc (s.store.filter (fun j => j.status = "downloading")).length
        ≤ s.registry.length :=
          downloading_le_registry s hinv.2.2.1 hinv.2.2.2
      _ ≤ n := hinv.2.1
  · refine ⟨by decide, by decide, by decide, by decide, by decide⟩

theorem c1_witness :
    c1scn.registry.length ≤ 2 ∧
    (c1scn.store.filter (fun j => j.status = "downloading")).length ≤ 2 := by
  refine c1_bounded_concurrency.1 2 c1scn ?_
  have h0 : Steps (fun _ a => noSetMax a = true) (initState 2) (initState 2) :=
    Steps.refl _
  have h1 := Steps.tail _ _ (.submit "A" "u" 0) h0 (by decide) (by decide)
  have h2 := Steps.tail _ _ (.submit "B" "u" 1) h1 (by decide) (by decide)
  have h3 := Steps.tail _ _ (.submit "C" "u" 2) h2 (by decide) (by decide)
  exact Steps.tail _ _ (.pass 3) h3 (by decide) (by decide)

/-- The counterexample state: two jobs dispatched under ceiling 2, then
the ceiling lowered to 1. -/
def c1cex : SchedState :=
  applyAct (applyAct (applyAct (applyAct (initState 2)
    (.submit "A" "u" 0)) (.submit "B" "u" 1)) (.pass 2)) (.setMax 1)

/-- C1 counterexample: a reachable state whose current ceiling is 1
while two jobs are registered active and `downloading` — more than N
jobs are active for ceiling N = 1, because `set_max_concurrent` never
preempts running jobs. -/
theorem c1_counterexample :
    Steps (fun _ _ => True) (initState 2) c1cex ∧
    c1cex.maxConc = 1 ∧ c1cex.registry.length = 2 ∧
    (c1cex.store.filter (fun j => j.status = "downloading")).length = 2 := by
  refine ⟨?_, by decide, by decide, by decide⟩
  have h0 : Steps (fun _ _ => True) (initState 2) (initState 2) := Steps.refl _
  have h1 := Steps.tail _ _ (.submit "A" "u" 0) h0 (by decide) trivial
  have h2 := Steps.tail _ _ (.submit "B" "u" 1) h1 (by decide) trivial
  have h3 := Steps.tail _ _ (.pass 2) h2 (by decide) trivial
  exact Steps.tail _ _ (.setMax 1) h3 (by decide) trivial

theorem removePair_self_not_mem (l : List (String × Nat)) (p : String × Nat)
    (h : (l.map Prod.fst).Nodup) : p ∉ removePair l p := by
  induction l with
  | nil => simp [removePair]
  | cons q rest ih =>
      simp only [List.map_cons, List.nodup_cons] at h
      by_cases hq : q = p
      · simp only [removePair, if_pos hq]
        intro hmem
        exact h.1 (List.mem_map.mpr ⟨p, hmem, (congrArg Prod.fst hq).symm⟩)
      · simp only [removePair, if_neg hq]
        intro hmem
        rcases List.mem_cons.mp hmem with h2 | h2
        · exact hq h2.symm
        · exact ih h.2 h2

theorem enabled_complete_mem (s : SchedState) (id : String) (tok : Nat)
    (res : Except String String) (now : Int)
    (h : enabledAct s (.complete id tok res now) = true) :
    (id, tok) ∈ s.runners := by
  simp only [enabledAct, Bool.and_eq_true, decide_eq_true_eq] at h
  exact h.1

/-- No live runner task exists for the id. -/
def noLiveRunner (s : SchedState) (id : String) : Bool :=
  !(s.runners.any (fun p => p.1 = id))

/-- The restriction under which the single-runner invariant holds:
`retry`/`redownload` are not applied to a job whose runner is live. -/
def guardOK (s : SchedState) : Act → Bool
  | .retry id => noLiveRunner s id
  | .redownload id => noLiveRunner s id
  | _ => true

theorem noLiveRunner_iff (s : SchedState) (id : String) :
    noLiveRunner s id = true ↔ ∀ p ∈ s.runners, p.1 ≠ id := by
  simp [noLiveRunner, List.any_eq_true]

/-- The invariant behind the single-runner property: runner keys and
registry keys are unique, store ids are unique, and every live runner's
job exists with a non-`queued` status. -/
def InvC7 (s : SchedState) : Prop :=
  (s.runners.map Prod.fst).Nodup ∧ (s.registry.map Prod.fst).Nodup ∧
  (s.store.map (fun j => j.id)).Nodup ∧
  ∀ p ∈ s.runners, ∃ j ∈ s.store, j.id = p.1 ∧ j.status ≠ "queued"

theorem invC7_retry_store (s : SchedState) (id : String)
    (hjobs : ∀ p ∈ s.runners, ∃ j ∈ s.store, j.id = p.1 ∧ j.status ≠ "queued")
    (hguard : ∀ p ∈ s.runners, p.1 ≠ id) :
    ∀ p ∈ s.runners, ∃ j ∈ increment_retry s.store id,
      j.id = p.1 ∧ j.status ≠ "queued" := by
  intro p hp
  obtain ⟨j, hj, hjid, hjst⟩ := hjobs p hp
  have hne : ¬ j.id = id := by
    rw [hjid]; exact hguard p hp
  refine ⟨j, ?_, hjid, hjst⟩
  have := List.mem_map_of_mem
    (fun j => if j.id = id then resetJob j else j) hj
  simp only [if_neg hne] at this
  exact this

theorem invC7_start (s : SchedState) (job : Job) (now : Int)
    (hinv : InvC7 s) (hg : get_job s.store job.id = some job)
    (hst : job.status = "queued") :
    InvC7 (start_download_task s job now) := by
  obtain ⟨hrun, hreg, hids, hjobs⟩ := hinv
  have hnew : ∀ p ∈ s.runners, p.1 ≠ job.id := by
    intro p hp he
    obtain ⟨j, hj, hjid, hjst⟩ := hjobs p hp
    have hjob := get_job_eq_some s.store job.id job hg
    have : j = job := List.inj_on_of_nodup_map hids hj hjob.1
      (by rw [hjid, he])
    rw [this] at hjst
    exact hjst hst
  refine ⟨?_, keys_insertReplace_nodup _ _ _ hreg, ?_, ?_⟩
  · show ((s.runners ++ [(job.id, s.nextTok)]).map Prod.fst).Nodup
    rw [List.map_append, List.nodup_append]
    refine ⟨hrun, List.nodup_singleton _, ?_⟩
    intro x hx hx2
    simp only [List.map_cons, List.map_nil, List.mem_singleton] at hx2
    rcases List.mem_map.mp hx with ⟨p, hp, rfl⟩
    exact hnew p hp hx2
  · show ((mark_downloading s.store job.id now).map (fun j => j.id)).Nodup
    rw [ids_mark_downloading]
    exact hids
  · intro p hp
    rcases List.mem_append.mp hp with hmem | hmem
    · obtain ⟨j, hj, hjid, hjst⟩ := hjobs p hmem
      have hne : ¬ j.id = job.id := by
        rw [hjid]; exact hnew p hmem
      refine ⟨j, ?_, hjid, hjst⟩
      have := List.mem_map_of_mem
        (fun j => if j.id = job.id then
          { j with status := "downloading", startedAt := some now } else j) hj
      simp only [if_neg hne] at this
      exact this
    · simp only [List.mem_singleton] at hmem
      subst hmem
      refine ⟨{ job with status := "downloading", startedAt := some now },
        ?_, rfl, by simp⟩
      have hjob := get_job_eq_some s.store job.id job hg
      exact List.mem_map.mpr ⟨job, hjob.1, by simp⟩

theorem invC7_go (fuel : Nat) (now : Int) (s : SchedState)
    (hinv : InvC7 s) : InvC7 (process_next_go fuel now s) := by
  induction fuel generalizing s with
  | zero => exact hinv
  | succ fuel ih =>
      rw [process_next_go]
      by_cases hfull : s.maxConc ≤ s.registry.length
      · rw [if_pos hfull]; exact hinv
      · rw [if_neg hfull]
        cases hq : s.queue with
        | nil => exact hinv
        | cons id rest =>
            show InvC7 (match get_job s.store id with
              | some job =>
                  if job.status = "queued" then
                    process_next_go fuel now
                      (start_download_task { s with queue := rest } job now)
                  else process_next_go fuel now { s with queue := rest }
              | none => process_next_go fuel now { s with queue := rest })
            have hinv1 : InvC7 { s with queue := rest } :=
              ⟨hinv.1, hinv.2.1, hinv.2.2.1, hinv.2.2.2⟩
            cases hg : get_job s.store id with
            | none => exact ih _ hinv1
            | some job =>
                show InvC7 (if job.status = "queued" then
                    process_next_go fuel now
                      (start_download_task { s with queue := rest } job now)
                  else process_next_go fuel now { s with queue := rest })
                by_cases hst : job.status = "queued"
                · rw [if_pos hst]
                  have hid : job.id = id := (get_job_eq_some _ _ _ hg).2
                  refine ih _ (invC7_start { s with queue := rest } job now
                    hinv1 ?_ hst)
                  show get_job s.store job.id = some job
                  rw [hid]
                  exact hg
                · rw [if_neg hst]
                  exact ih _ hinv1

theorem invC7_step (s : SchedState) (a : Act)
    (hinv : InvC7 s) (hen : enabledAct s a = true)
    (hp : guardOK s a = true) : InvC7 (applyAct s a) := by
  obtain ⟨hrun, hreg, hids, hjobs⟩ := hinv
  cases a with
  | submit id url now =>
      have hfresh := enabled_submit_fresh s id url now hen
      refine ⟨hrun, hreg, ?_, ?_⟩
      · show ((s.store ++ [newJob id url now]).map (fun j => j.id)).Nodup
        rw [List.map_append, List.nodup_append]
        refine ⟨hids, List.nodup_singleton _, ?_⟩
        intro x hx hx2
        simp only [List.map_cons, List.map_nil, List.mem_singleton] at hx2
        rcases List.mem_map.mp hx with ⟨j, hj, rfl⟩
        exact hfresh ⟨j, hj, hx2⟩
      · intro p hp2
        obtain ⟨j, hj, hjid, hjst⟩ := hjobs p hp2
        exact ⟨j, List.mem_append.mpr (Or.inl hj), hjid, hjst⟩
  | cancel id =>
      show InvC7 (cancel_job s id)
      unfold cancel_job
      cases lookupKey s.registry id with
      | some tok => exact ⟨hrun, hreg, hids, hjobs⟩
      | none => exact ⟨hrun, hreg, hids, hjobs⟩
  | retry id =>
      have hguard : ∀ p ∈ s.runners, p.1 ≠ id :=
        (noLiveRunner_iff s id).mp hp
      show InvC7 (retry_job s id).2
      unfold retry_job
      cases hg : get_job s.store id with
      | none => exact ⟨hrun, hreg, hids, hjobs⟩
      | some j =>
          refine ⟨hrun, hreg, ?_, ?_⟩
          · show ((increment_retry s.store id).map (fun j => j.id)).Nodup
            rw [ids_increment_retry]
            exact hids
          · exact invC7_retry_store s id hjobs hguard
  | redownload id =>
      have hguard : ∀ p ∈ s.runners, p.1 ≠ id :=
        (noLiveRunner_iff s id).mp hp
      show InvC7 (redownload_job s id).2
      unfold redownload_job
      cases hg : get_job s.store id with
      | none => exact ⟨hrun, hreg, hids, hjobs⟩
      | some j =>
          refine ⟨hrun, hreg, ?_, ?_⟩
          · show ((redownload_update s.store id).map (fun j => j.id)).Nodup
            rw [redownload_update_eq, ids_increment_retry]
            exact hids
          · exact invC7_retry_store s id hjobs hguard
  | setMax m =>
      show InvC7 (set_max_concurrent s m)
      unfold set_max_concurrent
      by_cases hm : 0 < m
      · rw [if_pos hm]; exact ⟨hrun, hreg, hids, hjobs⟩
      · rw [if_neg hm]; exact ⟨hrun, hreg, hids, hjobs⟩
  | pass now => exact invC7_go s.queue.length now s ⟨hrun, hreg, hids, hjobs⟩
  | complete id tok res now =>
      have hmem := enabled_complete_mem s id tok res now hen
      have key : ∀ (st2 : Store),
          (st2.map (fun j => j.id)).Nodup →
          (∀ p ∈ s.runners, p.1 ≠ id →
            ∃ j ∈ st2, j.id = p.1 ∧ j.status ≠ "queued") →
          InvC7 (notifyOne
            { s with
              store := st2,
              registry := removeKey s.registry id,
              runners := removePair s.runners (id, tok) }) := by
        intro st2 hnd hsub
        refine ⟨hrun.sublist ((removePair_sublist _ _).map _),
          hreg.sublist ((removeKey_sublist _ _).map _), hnd, ?_⟩
        intro p hp2
        have hpmem : p ∈ s.runners := (removePair_sublist _ _).subset hp2
        have hpne : p.1 ≠ id := by
          intro he
          have : p = (id, tok) := by
            have := List.inj_on_of_nodup_map hrun hpmem hmem he
            exact this
          rw [this] at hp2
          exact removePair_self_not_mem s.runners (id, tok) hrun hp2
        exact hsub p hpmem hpne
      have hupd : ∀ (f : Job → Job), (∀ x, (f x).id = x.id) →
          (∀ p ∈ s.runners, p.1 ≠ id →
            ∃ j ∈ s.store.map (fun x => if x.id = id then f x else x),
              j.id = p.1 ∧ j.status ≠ "queued") := by
        intro f hf p hp2 hpne
        obtain ⟨j, hj, hjid, hjst⟩ := hjobs p hp2
        have hne : ¬ j.id = id := by rw [hjid]; exact hpne
        refine ⟨j, ?_, hjid, hjst⟩
        have := List.mem_map_of_mem (fun x => if x.id = id then f x else x) hj
        simp only [if_neg hne] at this
        exact this
      cases res with
      | ok fn =>
          refine key (mark_done s.store id fn now) ?_ ?_
          · rw [ids_mark_done]; exact hids
          · exact hupd _ (fun _ => rfl)
      | error msg =>
          show InvC7 (complete_job s id tok (.error msg) now)
          by_cases hcc : containsCancelled msg
          · by_cases hex : check_job_exists s.store id
            · have he : complete_job s id tok (.error msg) now
                  = notifyOne
                    { s with
                      store := mark_failed s.store id "Cancelled" now,
                      registry := removeKey s.registry id,
                      runners := removePair s.runners (id, tok) } := by
                simp [complete_job, hcc, hex]
              rw [he]
              refine key _ ?_ (hupd _ (fun _ => rfl))
              rw [ids_mark_failed]; exact hids
            · have he : complete_job s id tok (.error msg) now
                  = notifyOne
                    { s with
                      store := s.store,
                      registry := removeKey s.registry id,
                      runners := removePair s.runners (id, tok) } := by
                simp [complete_job, hcc, hex]
              rw [he]
              refine key s.store hids ?_
              intro p hp2 hpne
              exact hjobs p hp2
          · have he : complete_job s id tok (.error msg) now
                = notifyOne
                  { s with
                    store := mark_failed s.store id msg now,
                    registry := removeKey s.registry id,
                    runners := removePair s.runners (id, tok) } := by
              simp [complete_job, hcc]
            rw [he]
            refine key _ ?_ (hupd _ (fun _ => rfl))
            rw [ids_mark_failed]; exact hids

theorem invC7_steps (s t : SchedState)
    (h : Steps (fun u a => guardOK u a = true) s t) (hinv : InvC7 s) :
    InvC7 t := by
  induction h with
  | refl => exact hinv
  | tail t a h hen hp ih => exact invC7_step t a ih hen hp

/-- C7 (corrected): registry entries are unique per id unconditionally
(DashMap semantics), and in every run in which `retry`/`redownload` are
never applied to a job whose runner is still live, every job id has at
most one live Process Runner at any time.  Without that restriction the
property fails: retrying a `downloading` job re-queues it and the
scheduler dispatches a second live runner for the same id — see the
counterexample. -/
theorem c7_single_runner (n : Nat) (s : SchedState)
    (h : Steps (fun u a => guardOK u a = true) (initState n) s) :
    (s.runners.map Prod.fst).Nodup ∧ (s.registry.map Prod.fst).Nodup := by
  have hinv := invC7_steps (initState n) s h
    ⟨List.nodup_nil, List.nodup_nil, List.nodup_nil,
      fun p hp => absurd hp (List.not_mem_nil p)⟩
  exact ⟨hinv.1, hinv.2.1⟩

/-- A guarded run: submit, dispatch, runner completes, then retry (legal:
the runner is gone) and a second dispatch. -/
def c7wS : SchedState :=
  applyAct (applyAct (applyAct (applyAct (applyAct (initState 2)
    (.submit "X" "u" 0)) (.pass 1)) (.complete "X" 0 (.ok "f.mp4") 2))
    (.retry "X")) (.pass 3)

theorem c7_witness :
    (c7wS.runners.map Prod.fst).Nodup ∧
    (c7wS.registry.map Prod.fst).Nodup := by
  refine c7_single_runner 2 c7wS ?_
  have h0 : Steps (fun u a => guardOK u a = true) (initState 2) (initState 2) :=
    Steps.refl _
  have h1 := Steps.tail _ _ (.submit "X" "u" 0) h0 (by decide) (by decide)
  have h2 := Steps.tail _ _ (.pass 1) h1 (by decide) (by decide)
  have h3 := Steps.tail _ _ (.complete "X" 0 (.ok "f.mp4") 2) h2
    (by decide) (by decide)
  have h4 := Steps.tail _ _ (.retry "X") h3 (by decide) (by decide)
  exact Steps.tail _ _ (.pass 3) h4 (by decide) (by decide)

/-- The counterexample state: job X dispatched, then retried while its
runner is live, then dispatched again. -/
def c7cex : SchedState :=
  applyAct (applyAct (applyAct (applyAct (initState 2)
    (.submit "X" "u" 0)) (.pass 1)) (.retry "X")) (.pass 2)

/-- C7 counterexample: a reachable state (submit X, pass, retry X, pass)
in which two runner tasks for the id `X` are live at once — the job was
dispatched a second time while its first runner was still live. -/
theorem c7_counterexample :
    Steps (fun _ _ => True) (initState 2) c7cex ∧
    c7cex.runners.map Prod.fst = ["X", "X"] ∧
    ¬ (c7cex.runners.map Prod.fst).Nodup := by
  refine ⟨?_, by decide, by decide⟩
  have h0 : Steps (fun _ _ => True) (initState 2) (initState 2) := Steps.refl _
  have h1 := Steps.tail _ _ (.submit "X" "u" 0) h0 (by decide) trivial
  have h2 := Steps.tail _ _ (.pass 1) h1 (by decide) trivial
  have h3 := Steps.tail _ _ (.retry "X") h2 (by decide) trivial
  exact Steps.tail _ _ (.pass 2) h3 (by decide) trivial

/-- Actions that could re-enqueue or re-create the given id. -/
def avoidsEnq (id : String) : Act → Bool
  | .submit i _ _ => i != id
  | .retry i => i != id
  | .redownload i => i != id
  | _ => true

/-- After a synchronous cancellation of a pending job: the id is out of
the pending queue, no runner task for it is live, and its stored status
is not `downloading`. -/
def NoTouch (id : String) (s : SchedState) : Prop :=
  id ∉ s.queue ∧ (∀ tok, (id, tok) ∉ s.runners) ∧
  (get_job s.store id).map (fun j => j.status) ≠ some "downloading"

theorem check_of_get (st : Store) (id : String) (j : Job)
    (h : get_job st id = some j) : check_job_exists st id = true :=
  (check_job_exists_iff st id).mpr
    ⟨j, (get_job_eq_some st id j h).1, (get_job_eq_some st id j h).2⟩

theorem noTouch_go (id : String) (fuel : Nat) (now : Int) (s : SchedState)
    (h : NoTouch id s) : NoTouch id (process_next_go fuel now s) := by
  induction fuel generalizing s with
  | zero => exact h
  | succ fuel ih =>
      rw [process_next_go]
      by_cases hfull : s.maxConc ≤ s.registry.length
      · rw [if_pos hfull]; exact h
      · rw [if_neg hfull]
        cases hq : s.queue with
        | nil => exact h
        | cons i rest =>
            have hq2 : id ∉ i :: rest := by rw [← hq]; exact h.1
            have hne : i ≠ id := fun e => hq2 (by simp [e])
            have hrest : id ∉ rest := fun e => hq2 (by simp [e])
            show NoTouch id (match get_job s.store i with
              | some job =>
                  if job.status = "queued" then
                    process_next_go fuel now
                      (start_download_task { s with queue := rest } job now)
                  else process_next_go fuel now { s with queue := rest }
              | none => process_next_go fuel now { s with queue := rest })
            have h1 : NoTouch id { s with queue := rest } :=
              ⟨hrest, h.2.1, h.2.2⟩
            cases hg : get_job s.store i with
            | none => exact ih _ h1
            | some job =>
                show NoTouch id (if job.status = "queued" then
                    process_next_go fuel now
                      (start_download_task { s with queue := rest } job now)
                  else process_next_go fuel now { s with queue := rest })
                by_cases hst : job.status = "queued"
                · rw [if_pos hst]
                  refine ih _ ⟨hrest, ?_, ?_⟩
                  · intro tok hm
                    rcases List.mem_append.mp hm with hm2 | hm2
                    · exact h.2.1 tok hm2
                    · simp only [List.mem_singleton, Prod.mk.injEq] at hm2
                      exact hne ((get_job_eq_some _ _ _ hg).2 ▸ hm2.1.symm)
                  · have heq : get_job (mark_downloading s.store job.id now) id
                        = get_job s.store id :=
                      get_job_map_update_ne s.store job.id id
                        (fun j => { j with
                          status := "downloading", startedAt := some now })
                        (fun _ => rfl)
                        (by rw [(get_job_eq_some _ _ _ hg).2]
                            exact fun e => hne e.symm)
                    show (get_job (mark_downloading s.store job.id now) id).map
                        (fun j => j.status) ≠ some "downloading"
                    rw [heq]
                    exact h.2.2
                · rw [if_neg hst]
                  exact ih _ h1

theorem noTouch_step (id : String) (s : SchedState) (a : Act)
    (h : NoTouch id s) (hen : enabledAct s a = true)
    (hp : avoidsEnq id a = true) : NoTouch id (applyAct s a) := by
  obtain ⟨hq, hr, hs⟩ := h
  cases a with
  | submit i url now =>
      have hne : i ≠ id := by simpa [avoidsEnq] using hp
      refine ⟨?_, hr, ?_⟩
      · show id ∉ s.queue ++ [i]
        intro hm
        rcases List.mem_append.mp hm with hm2 | hm2
        · exact hq hm2
        · simp only [List.mem_singleton] at hm2
          exact hne hm2.symm
      · show (get_job (s.store ++ [newJob i url now]) id).map
            (fun j => j.status) ≠ some "downloading"
        rw [get_job_append_ne s.store (newJob i url now) id hne]
        exact hs
  | cancel i =>
      show NoTouch id (cancel_job s i)
      unfold cancel_job
      cases lookupKey s.registry i with
      | some tok => exact ⟨hq, hr, hs⟩
      | none =>
          exact ⟨fun hm => hq ((removeFirstStr_sublist _ _).subset hm), hr, hs⟩
  | retry i =>
      have hne : i ≠ id := by simpa [avoidsEnq] using hp
      show NoTouch id (retry_job s i).2
      unfold retry_job
      cases hg : get_job s.store i with
      | none => exact ⟨hq, hr, hs⟩
      | some j =>
          refine ⟨?_, hr, ?_⟩
          · show id ∉ s.queue ++ [i]
            intro hm
            rcases List.mem_append.mp hm with hm2 | hm2
            · exact hq hm2
            · simp only [List.mem_singleton] at hm2
              exact hne hm2.symm
          · have heq : get_job (increment_retry s.store i) id
                = get_job s.store id :=
              get_job_map_update_ne s.store i id resetJob (fun _ => rfl)
                (fun e => hne e.symm)
            show (get_job (increment_retry s.store i) id).map
                (fun j => j.status) ≠ some "downloading"
            rw [heq]
            exact hs
  | redownload i =>
      have hne : i ≠ id := by simpa [avoidsEnq] using hp
      show NoTouch id (redownload_job s i).2
      unfold redownload_job
      cases hg : get_job s.store i with
      | none => exact ⟨hq, hr, hs⟩
      | some j =>
          refine ⟨?_, hr, ?_⟩
          · show id ∉ s.queue ++ [i]
            intro hm
            rcases List.mem_append.mp hm with hm2 | hm2
            · exact hq hm2
            · simp only [List.mem_singleton] at hm2
              exact hne hm2.symm
          · have heq : get_job (redownload_update s.store i) id
                = get_job s.store id := by
              rw [redownload_update_eq]
              exact get_job_map_update_ne s.store i id resetJob (fun _ => rfl)
                (fun e => hne e.symm)
            show (get_job (redownload_update s.store i) id).map
                (fun j => j.status) ≠ some "downloading"
            rw [heq]
            exact hs
  | setMax m =>
      show NoTouch id (set_max_concurrent s m)
      unfold set_max_concurrent
      by_cases hm : 0 < m
      · rw [if_pos hm]; exact ⟨hq, hr, hs⟩
      · rw [if_neg hm]; exact ⟨hq, hr, hs⟩
  | pass now => exact noTouch_go id s.queue.length now s ⟨hq, hr, hs⟩
  | complete i tok res now =>
      have hmem := enabled_complete_mem s i tok res now hen
      have hine : i ≠ id := by
        intro he
        subst he
        exact hr tok hmem
      have key : ∀ (st2 : Store), get_job st2 id = get_job s.store id →
          NoTouch id (notifyOne
            { s with
              store := st2,
              registry := removeKey s.registry i,
              runners := removePair s.runners (i, tok) }) := by
        intro st2 hst2
        refine ⟨hq, ?_, ?_⟩
        · intro tk hm
          exact hr tk ((removePair_sublist _ _).subset hm)
        · show (get_job st2 id).map (fun j => j.status) ≠ some "downloading"
          rw [hst2]
          exact hs
      show NoTouch id (complete_job s i tok res now)
      cases res with
      | ok fn =>
          refine key (mark_done s.store i fn now) ?_
          exact get_job_map_update_ne s.store i id
            (fun j => { j with
              status := "done", progress := 100, eta := none,
              filename := some fn, completedAt := some now })
            (fun _ => rfl) (fun e => hine e.symm)
      | error msg =>
          by_cases hcc : containsCancelled msg
          · by_cases hex : check_job_exists s.store i
            · have he : complete_job s i tok (.error msg) now
                  = notifyOne
                    { s with
                      store := mark_failed s.store i "Cancelled" now,
                      registry := removeKey s.registry i,
                      runners := removePair s.runners (i, tok) } := by
                simp [complete_job, hcc, hex]
              rw [he]
              refine key _ ?_
              exact get_job_map_update_ne s.store i id
                (fun j => { j with
                  status := "failed", error := some "Cancelled",
                  completedAt := some now })
                (fun _ => rfl) (fun e => hine e.symm)
            · have he : complete_job s i tok (.error msg) now
                  = notifyOne
                    { s with
                      store := s.store,
                      registry := removeKey s.registry i,
                      runners := removePair s.runners (i, tok) } := by
                simp [complete_job, hcc, hex]
              rw [he]
              exact key s.store rfl
          · have he : complete_job s i tok (.error msg) now
                = notifyOne
                  { s with
                    store := mark_failed s.store i msg now,
                    registry := removeKey s.registry i,
                    runners := removePair s.runners (i, tok) } := by
              simp [complete_job, hcc]
            rw [he]
            refine key _ ?_
            exact get_job_map_update_ne s.store i id
              (fun j => { j with
                status := "failed", error := some msg,
                completedAt := some now })
              (fun _ => rfl) (fun e => hine e.symm)

theorem noTouch_steps (id : String) (s t : SchedState)
    (h : Steps (fun _ a => avoidsEnq id a = true) s t) (hn : NoTouch id s) :
    NoTouch id t := by
  induction h with
  | refl => exact hn
  | tail t a h hen hp ih => exact noTouch_step id t a ih hen hp

/-- C2 (corrected): `cancel_job` on an id in the active registry only
cancels its token and returns at once, after which the runner's
cancelled completion is enabled and, once it fires, the job (still in
the store) is `failed` with error `Cancelled`, its registry entry is
gone and its runner task has ended.  On an id that is only pending,
`cancel_job` synchronously removes the first occurrence from the queue
and touches nothing else; if that was the only occurrence and no runner
for the id is live, the job never transitions to `downloading` in any
continuation that does not re-enqueue the id.  On an id that is neither
active nor pending, `cancel_job` is a no-op.  As stated the claim fails,
because the queue can hold the id twice and only the first occurrence is
removed — see the counterexample. -/
theorem c2_cancel_semantics (s : SchedState) (id : String) (tok : Nat)
    (j : Job) (now : Int) :
    (lookupKey s.registry id = some tok →
      cancel_job s id = { s with cancelled := tok :: s.cancelled }) ∧
    (lookupKey s.registry id = some tok → (id, tok) ∈ s.runners →
      get_job s.store id = some j →
      (s.registry.map Prod.fst).Nodup →
      enabledAct (cancel_job s id)
        (.complete id tok (.error "Job cancelled") now) = true ∧
      (get_job (applyAct (cancel_job s id)
          (.complete id tok (.error "Job cancelled") now)).store id).map
          (fun j2 => (j2.status, j2.error))
        = some ("failed", some "Cancelled") ∧
      lookupKey (applyAct (cancel_job s id)
          (.complete id tok (.error "Job cancelled") now)).registry id
        = none ∧
      (applyAct (cancel_job s id)
          (.complete id tok (.error "Job cancelled") now)).runners
        = removePair s.runners (id, tok)) ∧
    (lookupKey s.registry id = none → id ∈ s.queue →
      (cancel_job s id).queue = removeFirstStr s.queue id ∧
      (cancel_job s id).store = s.store ∧
      (s.queue.count id = 1 → id ∉ (cancel_job s id).queue) ∧
      (s.queue.count id = 1 → (∀ tk, (id, tk) ∉ s.runners) →
        (get_job s.store id).map (fun j2 => j2.status) ≠ some "downloading" →
        ∀ t, Steps (fun _ a => avoidsEnq id a = true) (cancel_job s id) t →
          (get_job t.store id).map (fun j2 => j2.status)
            ≠ some "downloading")) ∧
    (lookupKey s.registry id = none → id ∉ s.queue → cancel_job s id = s)
  := by
  refine ⟨?_, ?_, ?_, ?_⟩
  · intro h
    simp [cancel_job, h]
  · intro h hmem hj hnod
    have ha : cancel_job s id = { s with cancelled := tok :: s.cancelled } := by
      simp [cancel_job, h]
    rw [ha]
    have hcc : containsCancelled "Job cancelled" = true := by decide
    have hex : check_job_exists s.store id = true := check_of_get s.store id j hj
    have he : complete_job { s with cancelled := tok :: s.cancelled } id tok
        (.error "Job cancelled") now
        = notifyOne
          { s with
            cancelled := tok :: s.cancelled,
            store := mark_failed s.store id "Cancelled" now,
            registry := removeKey s.registry id,
            runners := removePair s.runners (id, tok) } := by
      simp [complete_job, hcc, hex]
    refine ⟨?_, ?_, ?_, ?_⟩
    · simp [enabledAct, hmem]
    · show (get_job (complete_job { s with cancelled := tok :: s.cancelled }
          id tok (.error "Job cancelled") now).store id).map
          (fun j2 => (j2.status, j2.error)) = some ("failed", some "Cancelled")
      rw [he]
      have heq : get_job (mark_failed s.store id "Cancelled" now) id
          = (get_job s.store id).map
            (fun j2 => { j2 with
              status := "failed", error := some "Cancelled",
              completedAt := some now }) :=
        get_job_map_update s.store id
          (fun j2 => { j2 with
            status := "failed", error := some "Cancelled",
            completedAt := some now })
          (fun _ => rfl)
      show (get_job (mark_failed s.store id "Cancelled" now) id).map
          (fun j2 => (j2.status, j2.error)) = some ("failed", some "Cancelled")
      rw [heq, hj]
      rfl
    · show lookupKey (complete_job { s with cancelled := tok :: s.cancelled }
          id tok (.error "Job cancelled") now).registry id = none
      rw [he]
      exact lookupKey_removeKey_self s.registry id hnod
    · show (complete_job { s with cancelled := tok :: s.cancelled }
          id tok (.error "Job cancelled") now).runners
          = removePair s.runners (id, tok)
      rw [he]
      rfl
  · intro h hmem
    have ha : cancel_job s id = { s with queue := removeFirstStr s.queue id } := by
      simp [cancel_job, h]
    refine ⟨by rw [ha], by rw [ha], ?_, ?_⟩
    · intro hcount
      rw [ha]
      show id ∉ removeFirstStr s.queue id
      have := removeFirstStr_count s.queue id hmem
      rw [hcount] at this
      have hzero : (removeFirstStr s.queue id).count id = 0 := by omega
      exact List.count_eq_zero.mp hzero
    · intro hcount hrun hst t hsteps
      have hnt : NoTouch id (cancel_job s id) := by
        rw [ha]
        refine ⟨?_, hrun, hst⟩
        show id ∉ removeFirstStr s.queue id
        have := removeFirstStr_count s.queue id hmem
        rw [hcount] at this
        have hzero : (removeFirstStr s.queue id).count id = 0 := by omega
        exact List.count_eq_zero.mp hzero
      exact (noTouch_steps id (cancel_job s id) t hsteps hnt).2.2
  · intro h hmem
    have ha : cancel_job s id = { s with queue := removeFirstStr s.queue id } := by
      simp [cancel_job, h]
    rw [ha, removeFirstStr_id_of_not_mem s.queue id hmem]

def c2wA : SchedState :=
  applyAct (applyAct (initState 2) (.submit "X" "u" 0)) (.pass 1)

def c2wAjob : Job :=
  { id := "X", url := "u", status := "downloading", progress := 0,
    eta := none, filename := none, createdAt := 0, startedAt := some 1,
    completedAt := none, retries := 0, error := none }

def c2wP : SchedState := applyAct (initState 2) (.submit "Y" "u" 0)

theorem c2_witness :
    cancel_job c2wA "X" = { c2wA with cancelled := 0 :: c2wA.cancelled } ∧
    (get_job (applyAct (cancel_job c2wA "X")
        (.complete "X" 0 (.error "Job cancelled") 5)).store "X").map
        (fun j2 => (j2.status, j2.error)) = some ("failed", some "Cancelled") ∧
    lookupKey (applyAct (cancel_job c2wA "X")
        (.complete "X" 0 (.error "Job cancelled") 5)).registry "X" = none ∧
    "Y" ∉ (cancel_job c2wP "Y").queue ∧
    (get_job (cancel_job c2wP "Y").store "Y").map (fun j2 => j2.status)
      ≠ some "downloading" ∧
    cancel_job c2wP "Z" = c2wP := by
  have hA := c2_cancel_semantics c2wA "X" 0 c2wAjob 5
  have hP := c2_cancel_semantics c2wP "Y" 0 (newJob "Y" "u" 0) 5
  have hZ := c2_cancel_semantics c2wP "Z" 0 (newJob "Y" "u" 0) 5
  have hAc := hA.2.1 (by decide) (by decide) (by decide) (by decide)
  have hPc := hP.2.2.1 (by decide) (by decide)
  refine ⟨hA.1 (by decide), hAc.2.1, hAc.2.2.1, hPc.2.2.1 (by decide), ?_,
    hZ.2.2.2 (by decide) (by decide)⟩
  exact hPc.2.2.2 (by decide)
    (by intro tk h2; exact (List.not_mem_nil _) h2) (by decide) _ (Steps.refl _)

def c2cexPre : SchedState :=
  applyAct (applyAct (initState 2) (.submit "X" "u" 0)) (.retry "X")

def c2cexPost : SchedState :=
  applyAct (applyAct c2cexPre (.cancel "X")) (.pass 1)

/-- C2 counterexample: after submit X and retry X the pending queue
holds X twice and X is not active; `cancel_job` removes only the first
occurrence, and the next scheduling pass dispatches X to `downloading` —
the cancelled pending job does transition to `downloading`, against the
claim. -/
theorem c2_counterexample :
    Steps (fun _ _ => True) (initState 2) c2cexPre ∧
    lookupKey c2cexPre.registry "X" = none ∧
    "X" ∈ c2cexPre.queue ∧
    c2cexPre.runners = [] ∧
    c2cexPre.queue = ["X", "X"] ∧
    (get_job c2cexPost.store "X").map (fun j2 => j2.status)
      = some "downloading" ∧
    Steps (fun _ _ => True) (initState 2) c2cexPost := by
  have h0 : Steps (fun _ _ => True) (initState 2) (initState 2) := Steps.refl _
  have h1 := Steps.tail _ _ (.submit "X" "u" 0) h0 (by decide) trivial
  have h2 := Steps.tail _ _ (.retry "X") h1 (by decide) trivial
  have h3 := Steps.tail _ _ (.cancel "X") h2 (by decide) trivial
  have h4 := Steps.tail _ _ (.pass 1) h3 (by decide) trivial
  exact ⟨h2, by decide, by decide, by decide, by decide, by decide, h4⟩
